import Mathlib

/-
Verification of the JinGen template-rendering pipeline (src/templating.py,
src/template_tf.py) against its natural-language specification.

The Python code is shallowly embedded:
  * YAML values become the inductive type `Val`; Python dicts become
    insertion-ordered association lists `List (String × Val)`.
  * `deep_merge`, `load_and_merge_data`, the `process_templates` loop and the
    non-template copier are translated as pure functions; file-system and
    template-engine behaviour is passed in explicitly as data.
  * A separate heap model (addresses + an explicit store) is used for the
    claims about mutation and object sharing.
-/

namespace JinGen

/-- A parsed YAML value: null, boolean, number, string, sequence, or mapping.
Mappings are insertion-ordered association lists, mirroring Python dicts. -/
inductive Val : Type where
  | vnull : Val
  | vbool : Bool → Val
  | vnum : Int → Val
  | vstr : String → Val
  | vseq : List Val → Val
  | vmap : List (String × Val) → Val

/-- A Python dict of YAML values: an insertion-ordered association list. -/
abbrev Dict := List (String × Val)

/-- First-match lookup, the value a Python dict holds at a key. -/
def lookupD : Dict → String → Option Val
  | [], _ => none
  | (k, v) :: t, q => if k = q then some v else lookupD t q

/-- Python dict assignment `d[k] = w`: replace the value in place if the key is
present (keeping its position), otherwise append the new entry at the end. -/
def setD : Dict → String → Val → Dict
  | [], q, w => [(q, w)]
  | (k, v) :: t, q, w => if k = q then (k, w) :: t else (k, v) :: setD t q w

/-- Whether a key is present in a dict. -/
def keyMem (q : String) : Dict → Bool
  | [] => false
  | (k, _) :: t => k = q || keyMem q t

/-- Faithful rendering of `copy.deepcopy` on the pure value model: deep copying
preserves the value (object identity is only visible in the heap model below). -/
def deepcopy (v : Val) : Val := v

/-- Embedding of `deep_merge` from src/templating.py lines 19-41 (identical in
src/template_tf.py lines 36-58).  For each key/value pair of `source`, in
insertion order: if the value is a dict, `target.setdefault(key, dict())` either
finds an existing node (merged into when it is a dict, overwritten by a deep
copy of the source value otherwise) or inserts a fresh empty dict that the
source value is then merged into; a non-dict value is assigned directly. -/
def deep_merge (target : Dict) : Dict → Dict
  | [] => target
  | (k, v) :: rest =>
    match v with
    | Val.vmap m =>
      match lookupD target k with
      | some (Val.vmap n) => deep_merge (setD target k (Val.vmap (deep_merge n m))) rest
      | some _ => deep_merge (setD target k (deepcopy (Val.vmap m))) rest
      | none => deep_merge (setD target k (Val.vmap (deep_merge [] m))) rest
    | _ => deep_merge (setD target k v) rest
termination_by s => sizeOf s
decreasing_by all_goals (simp_wf <;> omega)

/-- The value `deep_merge` leaves at a key whose source value is `v`, given the
value `tv` previously held by the target there (`none` when the key is absent). -/
def mergeVal (tv : Option Val) (v : Val) : Val :=
  match v with
  | Val.vmap m =>
    match tv with
    | some (Val.vmap n) => Val.vmap (deep_merge n m)
    | some _ => Val.vmap m
    | none => Val.vmap (deep_merge [] m)
  | _ => v

/-- Keys of a dict, in insertion order. -/
def keysD (t : Dict) : List String := t.map Prod.fst

mutual

/-- Hereditary well-formedness of a parsed YAML value: every mapping inside it
has pairwise-distinct keys (always true of dicts produced by a YAML parser). -/
def wfV : Val → Bool
  | Val.vmap m => wfD m
  | _ => true

/-- Hereditary well-formedness of a dict: distinct keys, well-formed values. -/
def wfD : Dict → Bool
  | [] => true
  | (k, v) :: t => !keyMem k t && wfV v && wfD t

end

mutual

/-- Shape compatibility of two values: at every shared key path the two layers
hold either two mappings or two non-mappings, never a mapping on one side and a
plain value on the other. -/
def compatV : Val → Val → Bool
  | Val.vmap m, Val.vmap n => compatD m n
  | Val.vmap _, _ => false
  | _, Val.vmap _ => false
  | _, _ => true

/-- Shape compatibility of one entry against every entry of a dict. -/
def compatP (p : String × Val) : Dict → Bool
  | [] => true
  | (k, w) :: s => (if p.1 = k then compatV p.2 w else true) && compatP p s

/-- Shape compatibility of two dicts: compatible values at every shared key. -/
def compatD : Dict → Dict → Bool
  | [], _ => true
  | p :: t, s => compatP p s && compatD t s

end


/-- Outcome of attempting to read and parse one data file, supplied as input
to the loader model (the file system is external to the core). -/
inductive FileData : Type where
  | absent : FileData
  | readError : FileData
  | parseError : FileData
  | parsed : Option Val → FileData

/-- Error taxonomy of `load_and_merge_data`: the four distinct raise sites of
src/templating.py lines 54-105, each naming the offending path (`notFound` for
the `is_file` check, `parseError` for `yaml.YAMLError`, `ioError` for `IOError`,
`invalidFormat` for a well-formed document that is not a dict). -/
inductive LoadError : Type where
  | notFound : String → LoadError
  | ioError : String → LoadError
  | parseError : String → LoadError
  | invalidFormat : String → LoadError
  deriving DecidableEq

/-- The loader loop of `load_and_merge_data` (src/templating.py lines 52-105,
identically src/template_tf.py lines 76-110): files processed strictly in
order, each merged into the accumulator immediately; a `None` parse (empty
file) is skipped; a non-dict parse raises; any raise aborts the whole load. -/
def loadLoop (fs : String → FileData) : List String → Dict → Except LoadError Dict
  | [], acc => Except.ok acc
  | p :: rest, acc =>
    match fs p with
    | FileData.absent => Except.error (LoadError.notFound p)
    | FileData.readError => Except.error (LoadError.ioError p)
    | FileData.parseError => Except.error (LoadError.parseError p)
    | FileData.parsed none => loadLoop fs rest acc
    | FileData.parsed (some v) =>
      match v with
      | Val.vmap m => loadLoop fs rest (deep_merge acc m)
      | _ => Except.error (LoadError.invalidFormat p)

/-- `load_and_merge_data`: fold the data files into an initially empty dict. -/
def load_and_merge_data (fs : String → FileData) (paths : List String) :
    Except LoadError Dict :=
  loadLoop fs paths []

/-- The render-time failures that `process_templates` catches per file
(src/templating.py lines 200-234): `TemplateNotFound`, `TemplateSyntaxError`,
`UndefinedError`, write `IOError`, and the catch-all `Exception`. -/
inductive RenderErr : Type where
  | templateNotFound : RenderErr
  | syntaxError : RenderErr
  | undefinedError : RenderErr
  | engineError : RenderErr

/-- One discovered template file together with the behaviour the environment
exhibits for it: whether creating its output subdirectory succeeds, what the
Jinja engine returns for it, and whether writing its output succeeds. -/
structure TemplateCase : Type where
  relPath : List Char
  mkdirOk : Bool
  render : Except RenderErr String
  writeOk : Bool

/-- The Processing Tally of one `process_templates` run.  `files_found`,
`succeeded` and `skipped` are the code's counters `template_files_found`,
`templates_processed_successfully` and `templates_skipped`; `failed` counts the
iterations that take one of the logged-error paths (subdirectory-creation
failure, a caught render exception, or a write failure), which the code leaves
implicit; `writes` records the output files actually written. -/
structure Tally : Type where
  files_found : Nat
  succeeded : Nat
  skipped : Nat
  failed : Nat
  writes : List (List Char × String)

/-- Python `str.strip()` whitespace: the characters a bare `strip()` call
removes are exactly those with `str.isspace()` true — the ASCII whitespace
controls and space, the separator controls 1C-1F, NEL (85), NBSP (A0), Ogham
space mark (1680), the Unicode space range 2000-200A, the line and paragraph
separators 2028/2029, narrow no-break space (202F), medium mathematical space
(205F), and ideographic space (3000). -/
def isSpace (c : Char) : Bool :=
  (decide (9 ≤ c.toNat) && decide (c.toNat ≤ 13)) ||
  decide (c.toNat = 32) ||
  (decide (28 ≤ c.toNat) && decide (c.toNat ≤ 31)) ||
  decide (c.toNat = 0x85) || decide (c.toNat = 0xa0) ||
  decide (c.toNat = 0x1680) ||
  (decide (0x2000 ≤ c.toNat) && decide (c.toNat ≤ 0x200a)) ||
  decide (c.toNat = 0x2028) || decide (c.toNat = 0x2029) ||
  decide (c.toNat = 0x202f) || decide (c.toNat = 0x205f) ||
  decide (c.toNat = 0x3000)

/-- Test `not rendered_content.strip()`: true iff every character of the
rendered text is whitespace (in particular for the empty text). -/
def strippedEmpty (s : String) : Bool := s.toList.all isSpace

/-- The template marker suffix, `DEFAULT_TEMPLATE_SUFFIX = ".j2"`. -/
def DEFAULT_TEMPLATE_SUFFIX : List Char := ['.', 'j', '2']

/-- Index of the last "." in a file name, if any. -/
def findLastDot : List Char → Option Nat
  | [] => none
  | c :: t =>
    match findLastDot t with
    | some i => some (i + 1)
    | none => if c = '.' then some 0 else none

/-- pathlib `PurePath.with_suffix("")` on a file NAME (one path component):
the suffix runs from the last dot, except that a dot in leading or final
position delimits no suffix (`Path(".j2").suffix == ""`), in which case the
name is unchanged. -/
def nameWithSuffixEmpty (name : List Char) : List Char :=
  match findLastDot name with
  | some i => if 0 < i ∧ i < name.length - 1 then name.take i else name
  | none => name

/-- The final component of a relative path: the longest suffix free of the
path separator. -/
def pathName (path : List Char) : List Char :=
  ((path.reverse).takeWhile (fun c => decide (c ≠ '/'))).reverse

/-- Everything before the final component, separator included. -/
def pathDir (path : List Char) : List Char :=
  ((path.reverse).dropWhile (fun c => decide (c ≠ '/'))).reverse

/-- pathlib `PurePath.with_suffix("")` on a relative path, as used by
`relative_path.with_suffix("")` (src/templating.py line 158): the suffix is
computed on the final path component only; the directory part is kept. -/
def withSuffixEmpty (path : List Char) : List Char :=
  pathDir path ++ nameWithSuffixEmpty (pathName path)

/-- Whether `glob("**/*" + DEFAULT_TEMPLATE_SUFFIX)` matches a file name:
pathlib glob does not treat leading dots specially, so this is exactly a
suffix test on the name. -/
def globMatchJ2 (name : List Char) : Bool :=
  DEFAULT_TEMPLATE_SUFFIX.isSuffixOf name

/-- Derived output file name of a template (src/templating.py line 158). -/
def outName (relPath : List Char) : List Char := withSuffixEmpty relPath

/-- One iteration of the `process_templates` loop over a discovered template
file (src/templating.py lines 154-234, identically src/template_tf.py lines
159-223): count it found; on subdirectory-creation failure continue; otherwise
render; a caught exception continues; blank rendered content is skipped and
nothing is written; otherwise write the output (a write failure is caught) and
count success. -/
def processOne (t : Tally) (f : TemplateCase) : Tally :=
  let t1 : Tally := { t with files_found := t.files_found + 1 }
  if f.mkdirOk = false then
    { t1 with failed := t1.failed + 1 }
  else
    match f.render with
    | Except.error _ => { t1 with failed := t1.failed + 1 }
    | Except.ok content =>
      if strippedEmpty content then
        { t1 with skipped := t1.skipped + 1 }
      else if f.writeOk then
        { t1 with succeeded := t1.succeeded + 1,
                  writes := t1.writes ++ [(outName f.relPath, content)] }
      else
        { t1 with failed := t1.failed + 1 }

/-- The all-zero tally the counters start from. -/
def emptyTally : Tally :=
  { files_found := 0, succeeded := 0, skipped := 0, failed := 0, writes := [] }

/-- A full `process_templates` pass over the discovered template files. -/
def process_templates (files : List TemplateCase) : Tally :=
  files.foldl processOne emptyTally

/-- One entry of the input tree as returned by `glob("**/*")`: its relative
path and whether it is a regular file. -/
structure FsEntry : Type where
  path : List Char
  isFile : Bool
  deriving DecidableEq

/-- The entries matched by `glob("**/*" + DEFAULT_TEMPLATE_SUFFIX)`. -/
def glob_j2 (entries : List FsEntry) : List FsEntry :=
  entries.filter (fun e => globMatchJ2 e.path)

/-- The copier candidate set before the `is_file` check: literally
`set(input_dir.glob("**/*")) - set(input_dir.glob("**/*.j2"))`
(src/templating.py lines 290-292). -/
def non_template_files (entries : List FsEntry) : List FsEntry :=
  entries.filter (fun e => decide (e ∉ glob_j2 entries))

/-- The regular files the copier actually copies. -/
def copier_candidates (entries : List FsEntry) : List FsEntry :=
  (non_template_files entries).filter (fun e => e.isFile)

/-- The regular files the template renderer actually processes
(src/templating.py lines 154-155). -/
def renderer_files (entries : List FsEntry) : List FsEntry :=
  (glob_j2 entries).filter (fun e => e.isFile)

/-- Heap values for the mutation/aliasing model: immutable numbers, references
to mutable list objects, references to mutable dict objects. -/
inductive HV : Type where
  | hint : Int → HV
  | hlist : Nat → HV
  | hdict : Nat → HV
  deriving DecidableEq

/-- An explicit Python heap: dict objects and list objects addressed by `Nat`,
with `next` the next fresh address. -/
structure Heap : Type where
  dicts : List (Nat × List (String × HV))
  lists : List (Nat × List Int)
  next : Nat
  deriving DecidableEq

/-- Lookup in a heap dict object's entry list. -/
def lookupH : List (String × HV) → String → Option HV
  | [], _ => none
  | (k, v) :: t, q => if k = q then some v else lookupH t q

/-- Assignment in a heap dict object's entry list: replace in place or append. -/
def setH : List (String × HV) → String → HV → List (String × HV)
  | [], q, w => [(q, w)]
  | (k, v) :: t, q, w => if k = q then (k, w) :: t else (k, v) :: setH t q w

/-- First-match lookup in a store addressed by naturals. -/
def lookupA {α : Type} : List (Nat × α) → Nat → Option α
  | [], _ => none
  | (k, v) :: t, q => if k = q then some v else lookupA t q

/-- The entries of the dict object at an address (unallocated reads as empty). -/
def getDict (h : Heap) (a : Nat) : List (String × HV) :=
  (lookupA h.dicts a).getD []

/-- Overwrite the value stored at an address, keeping its position; writing to
an unallocated address is a no-op (a Python write always goes through a live
object reference). -/
def setA {α : Type} : List (Nat × α) → Nat → α → List (Nat × α)
  | [], _, _ => []
  | (k, v) :: t, a, x => if k = a then (k, x) :: t else (k, v) :: setA t a x

/-- Overwrite the dict object at an address. -/
def setDictObj (h : Heap) (a : Nat) (es : List (String × HV)) : Heap :=
  { h with dicts := setA h.dicts a es }

/-- Python `d[k] = v` on the dict object at an address. -/
def setDictEntry (h : Heap) (a : Nat) (k : String) (v : HV) : Heap :=
  setDictObj h a (setH (getDict h a) k v)

/-- Allocate a fresh empty dict object. -/
def allocDict (h : Heap) : Nat × Heap :=
  (h.next,
   { dicts := h.dicts ++ [(h.next, [])], lists := h.lists, next := h.next + 1 })

/-- The elements of the list object at an address. -/
def getList (h : Heap) (a : Nat) : List Int :=
  (lookupA h.lists a).getD []

/-- Overwrite the list object at an address (models a caller mutating a list
in place after the merge). -/
def setListObj (h : Heap) (a : Nat) (xs : List Int) : Heap :=
  { h with lists := setA h.lists a xs }

/-- Allocate a fresh list object with the given elements. -/
def allocList (h : Heap) (xs : List Int) : Nat × Heap :=
  (h.next,
   { dicts := h.dicts, lists := h.lists ++ [(h.next, xs)], next := h.next + 1 })

/-- A heap value mentions only addresses below the allocation counter. -/
def hvOk (n : Nat) : HV → Bool
  | HV.hint _ => true
  | HV.hlist a => a < n
  | HV.hdict a => a < n

/-- Every allocated address, and every address a stored value refers to, lies
below the allocation counter. -/
def heapWF (h : Heap) : Bool :=
  h.dicts.all (fun p => p.1 < h.next && p.2.all (fun q => hvOk h.next q.2)) &&
  h.lists.all (fun p => p.1 < h.next)

/-- `copy.deepcopy` on the heap: numbers are immutable, list and dict objects
are rebuilt recursively at fresh addresses.  Fuel-indexed; `none` only on fuel
exhaustion. -/
def deepcopyHV : Nat → Heap → HV → Option (HV × Heap)
  | 0, _, _ => none
  | Nat.succ _, h, HV.hint n => some (HV.hint n, h)
  | Nat.succ _, h, HV.hlist a =>
    let r := allocList h (getList h a)
    some (HV.hlist r.1, r.2)
  | Nat.succ fuel, h, HV.hdict a =>
    match (getDict h a).foldl
      (fun acc p =>
        match acc with
        | none => none
        | some es_h =>
          match deepcopyHV fuel es_h.2 p.2 with
          | none => none
          | some v2_h => some (es_h.1 ++ [(p.1, v2_h.1)], v2_h.2))
      (some ([], h)) with
    | none => none
    | some es_h =>
      let r := allocDict es_h.2
      some (HV.hdict r.1, setDictObj r.2 r.1 es_h.1)

/-- `deep_merge` on the heap, mutating the target dict object in place exactly
as src/templating.py lines 25-41 do: for each source entry in order, a dict
value either recursively merges into an existing dict node, overwrites a
non-dict node with a deep copy, or is merged into a freshly inserted empty
dict; a non-dict value (number or list reference) is assigned directly — by
reference, with no copy.  Fuel-indexed; `none` only on fuel exhaustion. -/
def mergeH : Nat → Heap → Nat → Nat → Option Heap
  | 0, _, _, _ => none
  | Nat.succ fuel, h, ta, sa =>
    (getDict h sa).foldl
      (fun acc p =>
        match acc with
        | none => none
        | some h2 =>
          match p.2 with
          | HV.hdict ms =>
            match lookupH (getDict h2 ta) p.1 with
            | some (HV.hdict n) => mergeH fuel h2 n ms
            | some _ =>
              match deepcopyHV fuel h2 (HV.hdict ms) with
              | none => none
              | some r => some (setDictEntry r.2 ta p.1 r.1)
            | none =>
              let r := allocDict h2
              mergeH fuel (setDictEntry r.2 ta p.1 (HV.hdict r.1)) r.1 ms
          | _ => some (setDictEntry h2 ta p.1 p.2))
      (some h)

/-- Read `d[k1][k2]` through two dict levels. -/
def readPath2 (h : Heap) (d : Nat) (k1 k2 : String) : Option HV :=
  match lookupH (getDict h d) k1 with
  | some (HV.hdict d2) => lookupH (getDict h d2) k2
  | _ => none

/-- Read the list object referenced by `d[k1][k2]`. -/
def readListPath2 (h : Heap) (d : Nat) (k1 k2 : String) : Option (List Int) :=
  match readPath2 h d k1 k2 with
  | some (HV.hlist a) => some (getList h a)
  | _ => none

/-- Scenario for the sharing refutation: dict 0 is the empty target, dict 1 is
the source `a -> dict 2`, dict 2 holds `lst -> list 3`, list 3 is `[1]`. -/
def shareHeap : Heap :=
  { dicts := [(0, []), (1, [("a", HV.hdict 2)]), (2, [("lst", HV.hlist 3)])],
    lists := [(3, [1])], next := 4 }

/-- Scenario for the aliasing refutation: target dict 0 is `a -> dict 3`,
source dict 1 is `a -> dict 2, b -> dict 3`, dict 2 is `x -> 2`, and dict 3 —
shared between target and source — is `x -> 1`. -/
def aliasHeap : Heap :=
  { dicts := [(0, [("a", HV.hdict 3)]),
              (1, [("a", HV.hdict 2), ("b", HV.hdict 3)]),
              (2, [("x", HV.hint 2)]),
              (3, [("x", HV.hint 1)])],
    lists := [], next := 4 }

/-- The heap produced by merging `shareHeap`'s source dict 1 into its empty
target dict 0 (used to instantiate the no-shared-mutation theorem). -/
def mergedShareHeap : Heap :=
  { dicts := [(0, [("a", HV.hdict 4)]), (1, [("a", HV.hdict 2)]),
              (2, [("lst", HV.hlist 3)]), (4, [("lst", HV.hlist 3)])],
    lists := [(3, [1])], next := 5 }

/-- The result of deep-copying `shareHeap`'s dict 2: a fresh dict 5 holding a
fresh list 4 with the copied elements. -/
def copyShareResult : HV × Heap :=
  (HV.hdict 5,
   { dicts := [(0, []), (1, [("a", HV.hdict 2)]), (2, [("lst", HV.hlist 3)]),
               (5, [("lst", HV.hlist 4)])],
     lists := [(3, [1]), (4, [1])], next := 6 })

/-- Dict addresses reachable from a root dict address through dict-valued
entries. -/
inductive DReach (h : Heap) (root : Nat) : Nat → Prop where
  | refl : DReach h root root
  | step {a b : Nat} {k : String} : DReach h root a →
      (k, HV.hdict b) ∈ getDict h a → DReach h root b

/-- What one `mergeH` call may do to the heap, seen from a root `ta`: the
allocation counter only grows, well-formedness is preserved, no pre-existing
list object changes, no pre-existing dict object outside the root's reachable
region changes, and every dict-valued entry after the call either existed
before or points at a freshly allocated dict. -/
def MergeOk (ta : Nat) (h h2 : Heap) : Prop :=
  h.next ≤ h2.next ∧ heapWF h2 = true ∧
  (∀ l, l < h.next → getList h2 l = getList h l) ∧
  (∀ d, d < h.next → ¬ DReach h ta d → getDict h2 d = getDict h d) ∧
  (∀ d k b, (k, HV.hdict b) ∈ getDict h2 d →
    (k, HV.hdict b) ∈ getDict h d ∨ h.next ≤ b)

/-- The heap-shaped part of `CopyOk`: the counter grows, well-formedness is
preserved, no pre-existing list or dict object changes, and new dict- or
list-valued entries point into fresh space. -/
def HeapEvolve (h h2 : Heap) : Prop :=
  h.next ≤ h2.next ∧ heapWF h2 = true ∧
  (∀ l, l < h.next → getList h2 l = getList h l) ∧
  (∀ d, d < h.next → getDict h2 d = getDict h d) ∧
  (∀ d k b, (k, HV.hdict b) ∈ getDict h2 d →
    (k, HV.hdict b) ∈ getDict h d ∨ h.next ≤ b) ∧
  (∀ d k b, (k, HV.hlist b) ∈ getDict h2 d →
    (k, HV.hlist b) ∈ getDict h d ∨ h.next ≤ b)

/-- The copied entries accumulated so far: each value is well formed in the
current heap and any reference it carries is fresh relative to the original
heap. -/
def FreshVals (h h2 : Heap) (es : List (String × HV)) : Prop :=
  ∀ p ∈ es, hvOk h2.next p.2 = true ∧
    (∀ b, p.2 = HV.hdict b → h.next ≤ b) ∧
    (∀ b, p.2 = HV.hlist b → h.next ≤ b)

/-- What one `deepcopyHV` call may do: the counter grows, well-formedness is
preserved, no pre-existing list or dict object changes at all, new dict-valued
entries point at fresh dicts, new list-valued entries point at fresh lists,
and the returned value's own reference (if any) is fresh. -/
def CopyOk (h : Heap) (r : HV × Heap) : Prop :=
  h.next ≤ r.2.next ∧ heapWF r.2 = true ∧
  (∀ l, l < h.next → getList r.2 l = getList h l) ∧
  (∀ d, d < h.next → getDict r.2 d = getDict h d) ∧
  (∀ d k b, (k, HV.hdict b) ∈ getDict r.2 d →
    (k, HV.hdict b) ∈ getDict h d ∨ h.next ≤ b) ∧
  (∀ d k b, (k, HV.hlist b) ∈ getDict r.2 d →
    (k, HV.hlist b) ∈ getDict h d ∨ h.next ≤ b) ∧
  (∀ a, r.1 = HV.hdict a → h.next ≤ a) ∧
  (∀ a, r.1 = HV.hlist a → h.next ≤ a) ∧
  hvOk r.2.next r.1 = true

/-- One iteration of the `deep_merge` loop rewrites the target with `setD`. -/
theorem deep_merge_cons (t : Dict) (k : String) (v : Val) (rest : Dict) :
    deep_merge t ((k, v) :: rest) =
      deep_merge (setD t k (mergeVal (lookupD t k) v)) rest := by
  cases v with
  | vmap m =>
    cases h : lookupD t k with
    | none => simp [deep_merge, mergeVal, deepcopy, h]
    | some w => cases w <;> simp [deep_merge, mergeVal, deepcopy, h]
  | vnull => simp [deep_merge, mergeVal]
  | vbool b => simp [deep_merge, mergeVal]
  | vnum n => simp [deep_merge, mergeVal]
  | vstr s => simp [deep_merge, mergeVal]
  | vseq xs => simp [deep_merge, mergeVal]

theorem deep_merge_nil (t : Dict) : deep_merge t [] = t := by
  simp [deep_merge]

theorem lookupD_setD (t : Dict) (q : String) (w : Val) (x : String) :
    lookupD (setD t q w) x = if q = x then some w else lookupD t x := by
  induction t with
  | nil =>
    by_cases h : q = x <;> simp [setD, lookupD, h]
  | cons p t ih =>
    obtain ⟨k, v⟩ := p
    by_cases hk : k = q
    · subst hk
      by_cases h : k = x <;> simp [setD, lookupD, h]
    · by_cases h : k = x
      · subst h
        simp [setD, lookupD, hk, Ne.symm hk]
      · simp [setD, lookupD, hk, h, ih]

theorem keyMem_iff_lookupD (q : String) (t : Dict) :
    keyMem q t = true ↔ (lookupD t q).isSome := by
  induction t with
  | nil => simp [keyMem, lookupD]
  | cons p t ih =>
    obtain ⟨k, v⟩ := p
    by_cases h : k = q <;> simp [keyMem, lookupD, h, ih]

theorem keyMem_false_lookupD {q : String} {t : Dict} (h : keyMem q t = false) :
    lookupD t q = none := by
  cases hl : lookupD t q with
  | none => rfl
  | some v =>
    have := (keyMem_iff_lookupD q t).mpr (by simp [hl])
    rw [this] at h
    cases h

theorem keyMem_iff_mem_keysD (q : String) (t : Dict) :
    keyMem q t = true ↔ q ∈ keysD t := by
  induction t with
  | nil => simp [keyMem, keysD]
  | cons p t ih =>
    obtain ⟨k, v⟩ := p
    by_cases h : k = q
    · simp [keyMem, keysD, h]
    · simp [keyMem, keysD, h, ih]
      tauto

theorem keysD_setD (t : Dict) (q : String) (w : Val) :
    keysD (setD t q w) = if keyMem q t then keysD t else keysD t ++ [q] := by
  induction t with
  | nil => simp [setD, keysD, keyMem]
  | cons p t ih =>
    obtain ⟨k, v⟩ := p
    simp only [keysD] at ih ⊢
    by_cases h : k = q
    · simp [setD, keyMem, h]
    · by_cases hm : keyMem q t <;> simp [setD, keyMem, h, hm, ih]

theorem wfD_cons {k : String} {v : Val} {t : Dict}
    (h : wfD ((k, v) :: t) = true) :
    keyMem k t = false ∧ wfV v = true ∧ wfD t = true := by
  rw [wfD] at h
  simp only [Bool.and_eq_true, Bool.not_eq_true'] at h
  exact ⟨h.1.1, h.1.2, h.2⟩

theorem wfD_lookupD {t : Dict} {q : String} {v : Val}
    (ht : wfD t = true) (h : lookupD t q = some v) : wfV v = true := by
  induction t with
  | nil => cases h
  | cons p t ih =>
    obtain ⟨k, w⟩ := p
    obtain ⟨-, hw, ht'⟩ := wfD_cons ht
    by_cases hk : k = q
    · simp [lookupD, hk] at h
      exact h ▸ hw
    · simp [lookupD, hk] at h
      exact ih ht' h

theorem wfD_keysD_nodup {t : Dict} (ht : wfD t = true) : (keysD t).Nodup := by
  induction t with
  | nil => simp [keysD]
  | cons p t ih =>
    obtain ⟨k, v⟩ := p
    obtain ⟨hm, -, ht'⟩ := wfD_cons ht
    simp only [keysD, List.map_cons, List.nodup_cons]
    refine ⟨fun hk => ?_, ih ht'⟩
    rw [(keyMem_iff_mem_keysD k t).mpr hk] at hm
    cases hm

theorem compatP_lookupD {p : String × Val} {s : Dict} {w : Val}
    (hc : compatP p s = true) (hw : lookupD s p.1 = some w) :
    compatV p.2 w = true := by
  induction s with
  | nil => cases hw
  | cons q s ih =>
    obtain ⟨k, u⟩ := q
    rw [compatP, Bool.and_eq_true] at hc
    by_cases hk : k = p.1
    · simp [lookupD, hk] at hw
      subst hw
      have := hc.1
      rw [if_pos hk.symm] at this
      exact this
    · simp [lookupD, hk] at hw
      exact ih hc.2 hw

theorem lookupD_mem {t : Dict} {q : String} {v : Val}
    (h : lookupD t q = some v) : (q, v) ∈ t := by
  induction t with
  | nil => cases h
  | cons p t ih =>
    obtain ⟨k, w⟩ := p
    by_cases hk : k = q
    · simp [lookupD, hk] at h
      simp [hk, h]
    · simp [lookupD, hk] at h
      exact List.mem_cons_of_mem _ (ih h)

theorem compatD_lookupD {t s : Dict} {q : String} {v w : Val}
    (hc : compatD t s = true) (hv : lookupD t q = some v)
    (hw : lookupD s q = some w) : compatV v w = true := by
  induction t with
  | nil => cases hv
  | cons p t ih =>
    obtain ⟨k, u⟩ := p
    rw [compatD, Bool.and_eq_true] at hc
    by_cases hk : k = q
    · simp [lookupD, hk] at hv
      subst hv
      exact compatP_lookupD (p := (k, u)) hc.1 (by simpa [hk] using hw)
    · simp [lookupD, hk] at hv
      exact ih hc.2 hv

theorem sizeOf_lookupD {t : Dict} {q : String} {v : Val}
    (h : lookupD t q = some v) : sizeOf v < sizeOf t := by
  have hm := lookupD_mem h
  have h1 : sizeOf (q, v) ≤ sizeOf t := le_of_lt (List.sizeOf_lt_of_mem hm)
  have h2 : sizeOf v < sizeOf (q, v) := by simp
  omega

theorem keyMem_setD (t : Dict) (q : String) (w : Val) (x : String) :
    keyMem x (setD t q w) = (keyMem x t || q = x) := by
  induction t with
  | nil => simp [setD, keyMem, eq_comm]
  | cons p t ih =>
    obtain ⟨k, v⟩ := p
    by_cases hk : k = q
    · subst hk
      by_cases hx : k = x <;> simp [setD, keyMem, hx, eq_comm]
    · simp [setD, keyMem, hk, ih, Bool.or_assoc]

theorem setD_append {t : Dict} {q : String} (w : Val)
    (h : keyMem q t = false) : setD t q w = t ++ [(q, w)] := by
  induction t with
  | nil => simp [setD]
  | cons p t ih =>
    obtain ⟨k, v⟩ := p
    rw [keyMem, Bool.or_eq_false_iff] at h
    have hk : ¬k = q := by
      intro hkq
      rw [hkq] at h
      simp at h
    simp [setD, hk, ih h.2]

theorem keyMem_append (q : String) (t u : Dict) :
    keyMem q (t ++ u) = (keyMem q t || keyMem q u) := by
  induction t with
  | nil => simp [keyMem]
  | cons p t ih =>
    obtain ⟨k, v⟩ := p
    simp [keyMem, ih, Bool.or_assoc]

theorem wfD_setD {t : Dict} {q : String} {w : Val}
    (ht : wfD t = true) (hw : wfV w = true) : wfD (setD t q w) = true := by
  induction t with
  | nil => simp [setD, wfD, keyMem, hw]
  | cons p t ih =>
    obtain ⟨k, v⟩ := p
    obtain ⟨hm, hv, ht'⟩ := wfD_cons ht
    by_cases hk : k = q
    · subst hk
      rw [setD, if_pos rfl, wfD]
      simp [hm, hw, ht']
    · rw [setD, if_neg hk, wfD]
      simp [keyMem_setD, hm, hv, ih ht', hk, Ne.symm hk]

/-- What `deep_merge` leaves at each key: the source wins, with nested maps
merged recursively, exactly as `mergeVal` describes. -/
theorem lookupD_deep_merge (t : Dict) {s : Dict} (hs : wfD s = true)
    (q : String) :
    lookupD (deep_merge t s) q =
      match lookupD s q with
      | none => lookupD t q
      | some v => some (mergeVal (lookupD t q) v) := by
  induction s generalizing t with
  | nil => simp [deep_merge, lookupD]
  | cons p rest ih =>
    obtain ⟨k, v⟩ := p
    obtain ⟨hm, hv, hrest⟩ := wfD_cons hs
    rw [deep_merge_cons]
    by_cases hk : k = q
    · subst hk
      rw [ih _ hrest, keyMem_false_lookupD hm]
      simp [lookupD, lookupD_setD]
    · rw [ih _ hrest]
      simp only [lookupD, if_neg hk]
      cases lookupD rest q with
      | none => simp [lookupD_setD, hk]
      | some w => simp [lookupD_setD, hk]

theorem mergeVal_nonmap_src {tv : Option Val} {v : Val}
    (h : ∀ m, v ≠ Val.vmap m) : mergeVal tv v = v := by
  cases v with
  | vmap m => exact absurd rfl (h m)
  | vnull => rfl
  | vbool b => rfl
  | vnum n => rfl
  | vstr s => rfl
  | vseq xs => rfl

theorem mergeVal_map_map (n m : Dict) :
    mergeVal (some (Val.vmap n)) (Val.vmap m) = Val.vmap (deep_merge n m) := rfl

theorem mergeVal_none_map (m : Dict) :
    mergeVal none (Val.vmap m) = Val.vmap (deep_merge [] m) := rfl

theorem mergeVal_nonmap_tgt {w : Val} (m : Dict)
    (h : ∀ n, w ≠ Val.vmap n) : mergeVal (some w) (Val.vmap m) = Val.vmap m := by
  cases w with
  | vmap n => exact absurd rfl (h n)
  | vnull => rfl
  | vbool b => rfl
  | vnum n => rfl
  | vstr s => rfl
  | vseq xs => rfl

theorem wfV_mergeVal {tv : Option Val} {v : Val}
    (htv : ∀ w, tv = some w → wfV w = true) (hv : wfV v = true)
    (hrec : ∀ n m, tv = some (Val.vmap n) → v = Val.vmap m →
      wfV (Val.vmap (deep_merge n m)) = true)
    (hrec0 : ∀ m, tv = none → v = Val.vmap m →
      wfV (Val.vmap (deep_merge [] m)) = true) :
    wfV (mergeVal tv v) = true := by
  cases v with
  | vmap m =>
    cases tv with
    | none => rw [mergeVal_none_map]; exact hrec0 m rfl rfl
    | some w =>
      cases w with
      | vmap n => rw [mergeVal_map_map]; exact hrec n m rfl rfl
      | vnull => rw [mergeVal_nonmap_tgt m (by intro n h; cases h)]; exact hv
      | vbool b => rw [mergeVal_nonmap_tgt m (by intro n h; cases h)]; exact hv
      | vnum n2 => rw [mergeVal_nonmap_tgt m (by intro n h; cases h)]; exact hv
      | vstr s2 => rw [mergeVal_nonmap_tgt m (by intro n h; cases h)]; exact hv
      | vseq xs => rw [mergeVal_nonmap_tgt m (by intro n h; cases h)]; exact hv
  | vnull => rw [mergeVal_nonmap_src (by intro n h; cases h)]; exact hv
  | vbool b => rw [mergeVal_nonmap_src (by intro n h; cases h)]; exact hv
  | vnum n2 => rw [mergeVal_nonmap_src (by intro n h; cases h)]; exact hv
  | vstr s2 => rw [mergeVal_nonmap_src (by intro n h; cases h)]; exact hv
  | vseq xs => rw [mergeVal_nonmap_src (by intro n h; cases h)]; exact hv

/-- Merging into a target that shares no keys with the source appends the
source unchanged (strong induction on the size of the source). -/
theorem deep_merge_disjoint_aux : ∀ (N : Nat) (s t : Dict), sizeOf s ≤ N →
    wfD s = true → (∀ k, keyMem k s = true → keyMem k t = false) →
    deep_merge t s = t ++ s := by
  intro N
  induction N with
  | zero =>
    intro s t hle
    cases s with
    | nil => intro _ _; simp [deep_merge]
    | cons p rest => simp at hle
  | succ N ih =>
    intro s t hle hs hdisj
    cases s with
    | nil => simp [deep_merge]
    | cons p rest =>
      obtain ⟨k, v⟩ := p
      obtain ⟨hm, hv, hrest⟩ := wfD_cons hs
      have hkt : keyMem k t = false := hdisj k (by simp [keyMem])
      rw [deep_merge_cons, keyMem_false_lookupD hkt]
      have hsize : sizeOf rest ≤ N ∧ ∀ m : Dict, v = Val.vmap m → sizeOf m ≤ N := by
        constructor
        · simp only [List.cons.sizeOf_spec, Prod.mk.sizeOf_spec] at hle
          have : 0 < sizeOf v := by cases v <;> simp
          omega
        · intro m hv2
          subst hv2
          simp only [List.cons.sizeOf_spec, Prod.mk.sizeOf_spec,
            Val.vmap.sizeOf_spec] at hle
          omega
      have hmv : mergeVal none v = v := by
        cases v with
        | vmap m =>
          rw [wfV] at hv
          rw [mergeVal_none_map,
            ih m [] (hsize.2 m rfl) hv (fun _ _ => rfl)]
          rfl
        | vnull => rfl
        | vbool b => rfl
        | vnum n => rfl
        | vstr s2 => rfl
        | vseq xs => rfl
      rw [hmv, setD_append v hkt]
      have hdisj2 : ∀ k2, keyMem k2 rest = true →
          keyMem k2 (t ++ [(k, v)]) = false := by
        intro k2 h2
        rw [keyMem_append]
        have ht2 : keyMem k2 t = false := hdisj k2 (by simp [keyMem, h2])
        have hk2 : ¬k = k2 := by
          intro h
          rw [← h] at h2
          rw [h2] at hm
          cases hm
        simp [ht2, keyMem, hk2]
      rw [ih rest (t ++ [(k, v)]) hsize.1 hrest hdisj2, List.append_assoc]
      rfl

theorem deep_merge_disjoint (s t : Dict) (hs : wfD s = true)
    (hdisj : ∀ k, keyMem k s = true → keyMem k t = false) :
    deep_merge t s = t ++ s :=
  deep_merge_disjoint_aux (sizeOf s) s t le_rfl hs hdisj

/-- Merging an empty target with a well-formed dict rebuilds it unchanged. -/
theorem deep_merge_nil_left {m : Dict} (hm : wfD m = true) :
    deep_merge [] m = m := by
  rw [deep_merge_disjoint m [] hm (fun _ _ => rfl)]
  rfl

/-- Merging two well-formed dicts yields a well-formed dict. -/
theorem wfD_deep_merge_aux : ∀ (N : Nat) (s t : Dict), sizeOf s ≤ N →
    wfD t = true → wfD s = true → wfD (deep_merge t s) = true := by
  intro N
  induction N with
  | zero =>
    intro s t hle
    cases s with
    | nil => intro ht _; simpa [deep_merge]
    | cons p rest => simp at hle
  | succ N ih =>
    intro s t hle ht hs
    cases s with
    | nil => simpa [deep_merge]
    | cons p rest =>
      obtain ⟨k, v⟩ := p
      obtain ⟨hm, hv, hrest⟩ := wfD_cons hs
      have hrestsize : sizeOf rest ≤ N := by
        simp only [List.cons.sizeOf_spec, Prod.mk.sizeOf_spec] at hle
        have : 0 < sizeOf v := by cases v <;> simp
        omega
      have hmsize : ∀ m : Dict, v = Val.vmap m → sizeOf m ≤ N := by
        intro m hv2
        subst hv2
        simp only [List.cons.sizeOf_spec, Prod.mk.sizeOf_spec,
          Val.vmap.sizeOf_spec] at hle
        omega
      rw [deep_merge_cons]
      refine ih rest _ hrestsize (wfD_setD ht ?_) hrest
      refine wfV_mergeVal (fun w hw => wfD_lookupD ht hw) hv ?_ ?_
      · intro n m hn hvm
        have hwn : wfD n = true := by
          have := wfD_lookupD ht hn
          rwa [wfV] at this
        have hwm : wfD m = true := by
          rw [hvm, wfV] at hv
          exact hv
        rw [wfV]
        exact ih m n (hmsize m hvm) hwn hwm
      · intro m _ hvm
        have hwm : wfD m = true := by
          rw [hvm, wfV] at hv
          exact hv
        rw [wfV]
        exact ih m [] (hmsize m hvm) rfl hwm

theorem wfD_deep_merge {s t : Dict} (ht : wfD t = true) (hs : wfD s = true) :
    wfD (deep_merge t s) = true :=
  wfD_deep_merge_aux (sizeOf s) s t le_rfl ht hs

/-- The keys of a merge: the target's keys, then the source's new keys, both in
insertion order. -/
theorem keysD_deep_merge {s : Dict} (t : Dict) (hs : wfD s = true) :
    keysD (deep_merge t s) =
      keysD t ++ (keysD s).filter (fun k => !keyMem k t) := by
  induction s generalizing t with
  | nil => simp [deep_merge, keysD]
  | cons p rest ih =>
    obtain ⟨k, v⟩ := p
    obtain ⟨hm, hv, hrest⟩ := wfD_cons hs
    rw [deep_merge_cons, ih _ hrest, keysD_setD]
    have hne : ∀ x ∈ keysD rest, ¬x = k := by
      intro x hx h
      subst h
      rw [(keyMem_iff_mem_keysD x rest).mpr hx] at hm
      cases hm
    by_cases hk : keyMem k t
    · rw [if_pos hk]
      have hfil : ∀ x ∈ keysD rest,
          (!keyMem x (setD t k (mergeVal (lookupD t k) v))) = (!keyMem x t) := by
        intro x hx
        have hkx : ¬k = x := fun h => hne x hx h.symm
        rw [keyMem_setD]
        simp [hkx]
      rw [List.filter_congr hfil]
      have : keysD ((k, v) :: rest) = k :: keysD rest := rfl
      rw [this, List.filter_cons]
      simp [hk]
    · rw [if_neg hk]
      have hfil : ∀ x ∈ keysD rest,
          (!keyMem x (setD t k (mergeVal (lookupD t k) v))) = (!keyMem x t) := by
        intro x hx
        have hkx : ¬k = x := fun h => hne x hx h.symm
        rw [keyMem_setD]
        simp [hkx]
      rw [List.filter_congr hfil]
      have : keysD ((k, v) :: rest) = k :: keysD rest := rfl
      rw [this, List.filter_cons]
      simp only [hk]
      simp

theorem keyMem_deep_merge {s : Dict} (t : Dict) (hs : wfD s = true)
    (x : String) :
    keyMem x (deep_merge t s) = (keyMem x t || keyMem x s) := by
  have hk := keysD_deep_merge t hs
  have h1 : keyMem x (deep_merge t s) = true ↔
      (keyMem x t = true ∨ keyMem x s = true) := by
    rw [keyMem_iff_mem_keysD, hk, List.mem_append, keyMem_iff_mem_keysD,
      keyMem_iff_mem_keysD, List.mem_filter]
    constructor
    · rintro (h | ⟨h, -⟩)
      · exact Or.inl h
      · exact Or.inr h
    · rintro (h | h)
      · exact Or.inl h
      · by_cases hxt : x ∈ keysD t
        · exact Or.inl hxt
        · refine Or.inr ⟨h, ?_⟩
          simp [← keyMem_iff_mem_keysD] at hxt
          simp [hxt]
  cases h2 : keyMem x t <;> cases h3 : keyMem x s <;> simp [h2, h3] at h1 ⊢ <;>
    simp [h1]

/-- Two dicts with the same keys in the same order and the same lookups are
equal. -/
theorem eq_of_keysD_lookupD : ∀ {t u : Dict}, keysD t = keysD u →
    (keysD t).Nodup → (∀ q, lookupD t q = lookupD u q) → t = u := by
  intro t
  induction t with
  | nil =>
    intro u hk _ _
    cases u with
    | nil => rfl
    | cons p u => simp [keysD] at hk
  | cons p t ih =>
    intro u hk hnd hl
    obtain ⟨k, v⟩ := p
    cases u with
    | nil => simp [keysD] at hk
    | cons q u =>
      obtain ⟨k2, w⟩ := q
      simp only [keysD, List.map_cons, List.cons.injEq] at hk
      obtain ⟨hk1, hk2⟩ := hk
      subst hk1
      have hnd2 := hnd
      simp only [keysD, List.map_cons, List.nodup_cons] at hnd2
      have hv : v = w := by
        have := hl k
        simp [lookupD] at this
        exact this
      subst hv
      congr 1
      refine ih hk2 hnd2.2 fun q2 => ?_
      by_cases hq : k = q2
      · subst hq
        have h1 : lookupD t k = none := by
          apply keyMem_false_lookupD
          cases hm : keyMem k t with
          | false => rfl
          | true =>
            exact absurd ((keyMem_iff_mem_keysD k t).mp hm) hnd2.1
        have h2 : lookupD u k = none := by
          apply keyMem_false_lookupD
          cases hm : keyMem k u with
          | false => rfl
          | true =>
            rw [hk2] at hnd2
            exact absurd ((keyMem_iff_mem_keysD k u).mp hm) hnd2.1
        rw [h1, h2]
      · have := hl q2
        simpa [lookupD, hq] using this

theorem compatV_map_map (m n : Dict) :
    compatV (Val.vmap m) (Val.vmap n) = compatD m n := by
  rw [compatV]

theorem compatV_some_map {v : Val} {m : Dict}
    (h : compatV v (Val.vmap m) = true) : ∃ n, v = Val.vmap n := by
  cases v with
  | vmap n => exact ⟨n, rfl⟩
  | vnull => simp [compatV] at h
  | vbool b => simp [compatV] at h
  | vnum n => simp [compatV] at h
  | vstr s => simp [compatV] at h
  | vseq xs => simp [compatV] at h

theorem wfD_of_lookupD_map {t : Dict} {q : String} {m : Dict}
    (ht : wfD t = true) (h : lookupD t q = some (Val.vmap m)) :
    wfD m = true := by
  have := wfD_lookupD ht h
  rwa [wfV] at this

/-- Associativity of `deep_merge` for shape-compatible, well-formed layers
(strong induction on the combined size of the three dicts). -/
theorem deep_merge_assoc_aux : ∀ (N : Nat) (a b c : Dict),
    sizeOf a + sizeOf b + sizeOf c ≤ N →
    wfD a = true → wfD b = true → wfD c = true →
    compatD a b = true → compatD a c = true → compatD b c = true →
    deep_merge (deep_merge a b) c = deep_merge a (deep_merge b c) := by
  intro N
  induction N with
  | zero =>
    intro a b c hle _ _ _ _ _ _
    exfalso
    have ha : 0 < sizeOf a := by cases a <;> simp
    have hb : 0 < sizeOf b := by cases b <;> simp
    omega
  | succ N ih =>
    intro a b c hle ha hb hc hab hac hbc
    have hwab : wfD (deep_merge a b) = true := wfD_deep_merge ha hb
    have hwbc : wfD (deep_merge b c) = true := wfD_deep_merge hb hc
    apply eq_of_keysD_lookupD
    · -- the two groupings produce the same keys in the same order
      rw [keysD_deep_merge _ hc, keysD_deep_merge _ hb,
        keysD_deep_merge _ hwbc, keysD_deep_merge _ hc,
        List.filter_append, List.filter_filter, List.append_assoc]
      congr 1
      congr 1
      apply List.filter_congr
      intro x _
      rw [keyMem_deep_merge _ hb, Bool.not_or]
    · exact wfD_keysD_nodup (wfD_deep_merge hwab hc)
    · -- the two groupings agree on every lookup
      intro q
      rw [lookupD_deep_merge _ hc q, lookupD_deep_merge _ hwbc q,
        lookupD_deep_merge _ hb q, lookupD_deep_merge _ hc q]
      cases hcq : lookupD c q with
      | none => rfl
      | some w =>
        cases w with
        | vmap mc =>
          have hwmc : wfD mc = true := wfD_of_lookupD_map hc hcq
          cases hbq : lookupD b q with
          | none =>
            dsimp only
            rw [mergeVal_none_map, deep_merge_nil_left hwmc]
          | some vb =>
            obtain ⟨mb, rfl⟩ :=
              compatV_some_map (compatD_lookupD hbc hbq hcq)
            have hwmb : wfD mb = true := wfD_of_lookupD_map hb hbq
            dsimp only
            rw [mergeVal_map_map]
            cases haq : lookupD a q with
            | none =>
              rw [mergeVal_none_map, deep_merge_nil_left hwmb,
                mergeVal_map_map, mergeVal_none_map,
                deep_merge_nil_left (wfD_deep_merge hwmb hwmc)]
            | some va =>
              obtain ⟨ma, rfl⟩ :=
                compatV_some_map (compatD_lookupD hab haq hbq)
              have hwma : wfD ma = true := wfD_of_lookupD_map ha haq
              have hsa : sizeOf ma < sizeOf a := by
                have := sizeOf_lookupD haq
                simp only [Val.vmap.sizeOf_spec] at this
                omega
              have hsb : sizeOf mb < sizeOf b := by
                have := sizeOf_lookupD hbq
                simp only [Val.vmap.sizeOf_spec] at this
                omega
              have hsc : sizeOf mc < sizeOf c := by
                have := sizeOf_lookupD hcq
                simp only [Val.vmap.sizeOf_spec] at this
                omega
              have hcab : compatD ma mb = true := by
                have := compatD_lookupD hab haq hbq
                rwa [compatV_map_map] at this
              have hcac : compatD ma mc = true := by
                have := compatD_lookupD hac haq hcq
                rwa [compatV_map_map] at this
              have hcbc : compatD mb mc = true := by
                have := compatD_lookupD hbc hbq hcq
                rwa [compatV_map_map] at this
              simp only [mergeVal_map_map]
              rw [ih ma mb mc (by omega) hwma hwmb hwmc hcab hcac hcbc]
        | vnull => rfl
        | vbool b2 => rfl
        | vnum n2 => rfl
        | vstr s2 => rfl
        | vseq xs => rfl

/-- C2 counterexample: `deep_merge` is not associative.  With layer A mapping
key a to the nested map (x: 1), layer B mapping a to the scalar 2, and layer C
mapping a to the nested map (y: 3), the left
grouping first lets the scalar wipe out the nested map and then replaces it by
a copy of `C`'s map, while the right grouping first merges `B` and `C` and then
merges the result into `A`'s surviving nested map, so the groupings disagree
even as values (the inner maps have different key sets). -/
theorem C2_counterexample :
    deep_merge
        (deep_merge [("a", Val.vmap [("x", Val.vnum 1)])] [("a", Val.vnum 2)])
        [("a", Val.vmap [("y", Val.vnum 3)])] =
      [("a", Val.vmap [("y", Val.vnum 3)])] ∧
    deep_merge [("a", Val.vmap [("x", Val.vnum 1)])]
        (deep_merge [("a", Val.vnum 2)] [("a", Val.vmap [("y", Val.vnum 3)])]) =
      [("a", Val.vmap [("x", Val.vnum 1), ("y", Val.vnum 3)])] ∧
    deep_merge
        (deep_merge [("a", Val.vmap [("x", Val.vnum 1)])] [("a", Val.vnum 2)])
        [("a", Val.vmap [("y", Val.vnum 3)])] ≠
      deep_merge [("a", Val.vmap [("x", Val.vnum 1)])]
        (deep_merge [("a", Val.vnum 2)] [("a", Val.vmap [("y", Val.vnum 3)])]) := by
  refine ⟨?_, ?_, ?_⟩ <;> simp [deep_merge, lookupD, setD, deepcopy]

/-- C2 (amended): deep merge of well-formed configuration maps is associative
under left-to-right grouping provided the layers are pairwise shape-compatible
(no key path holds a nested map in one layer and a non-map value in another);
without that proviso associativity fails. -/
theorem C2_deep_merge_assoc_compat (a b c : Dict)
    (ha : wfD a = true) (hb : wfD b = true) (hc : wfD c = true)
    (hab : compatD a b = true) (hac : compatD a c = true)
    (hbc : compatD b c = true) :
    deep_merge (deep_merge a b) c = deep_merge a (deep_merge b c) :=
  deep_merge_assoc_aux (sizeOf a + sizeOf b + sizeOf c) a b c le_rfl
    ha hb hc hab hac hbc

/-- C2 witness: the amended associativity applied to three concrete
shape-compatible layers. -/
theorem C2_deep_merge_assoc_compat_witness :
    wfD [("a", Val.vmap [("x", Val.vnum 1)])] = true ∧
    compatD [("a", Val.vmap [("x", Val.vnum 1)])]
      [("a", Val.vmap [("y", Val.vnum 2)])] = true ∧
    deep_merge
        (deep_merge [("a", Val.vmap [("x", Val.vnum 1)])]
          [("a", Val.vmap [("y", Val.vnum 2)])])
        [("a", Val.vmap [("z", Val.vnum 3)])] =
      deep_merge [("a", Val.vmap [("x", Val.vnum 1)])]
        (deep_merge [("a", Val.vmap [("y", Val.vnum 2)])]
          [("a", Val.vmap [("z", Val.vnum 3)])]) :=
  ⟨by simp [wfD, wfV, keyMem],
   by simp [compatD, compatP, compatV],
   C2_deep_merge_assoc_compat _ _ _
     (by simp [wfD, wfV, keyMem]) (by simp [wfD, wfV, keyMem])
     (by simp [wfD, wfV, keyMem])
     (by simp [compatD, compatP, compatV])
     (by simp [compatD, compatP, compatV])
     (by simp [compatD, compatP, compatV])⟩

/-- C3: when target and source both hold nested maps under a shared key, the
merge combines them key-by-key: the merged entry is the recursive merge, keys
absent from the later map keep the earlier map's value, and non-map values
present in the later map overwrite. -/
theorem C3_nested_merge_right_bias (t s n m : Dict) (q : String)
    (ht : wfD t = true) (hs : wfD s = true)
    (htq : lookupD t q = some (Val.vmap n))
    (hsq : lookupD s q = some (Val.vmap m)) :
    lookupD (deep_merge t s) q = some (Val.vmap (deep_merge n m)) ∧
    (∀ x, lookupD m x = none → lookupD (deep_merge n m) x = lookupD n x) ∧
    (∀ x w, lookupD m x = some w → (∀ mm, w ≠ Val.vmap mm) →
      lookupD (deep_merge n m) x = some w) := by
  have hm : wfD m = true := wfD_of_lookupD_map hs hsq
  refine ⟨?_, ?_, ?_⟩
  · rw [lookupD_deep_merge t hs q, hsq]
    dsimp only
    rw [htq, mergeVal_map_map]
  · intro x hx
    rw [lookupD_deep_merge n hm x, hx]
  · intro x w hw hnm
    rw [lookupD_deep_merge n hm x, hw]
    dsimp only
    rw [mergeVal_nonmap_src hnm]

/-- C3 witness: merging a mapping of a to (x: 1, y: 2) with a later mapping of
a to (y: 3) yields a to (x: 1, y: 3): sibling `x` survives, `y` is
overwritten. -/
theorem C3_nested_merge_right_bias_witness :
    lookupD (deep_merge [("a", Val.vmap [("x", Val.vnum 1), ("y", Val.vnum 2)])]
        [("a", Val.vmap [("y", Val.vnum 3)])]) "a" =
      some (Val.vmap (deep_merge [("x", Val.vnum 1), ("y", Val.vnum 2)]
        [("y", Val.vnum 3)])) ∧
    deep_merge [("a", Val.vmap [("x", Val.vnum 1), ("y", Val.vnum 2)])]
        [("a", Val.vmap [("y", Val.vnum 3)])] =
      [("a", Val.vmap [("x", Val.vnum 1), ("y", Val.vnum 3)])] :=
  ⟨(C3_nested_merge_right_bias
      [("a", Val.vmap [("x", Val.vnum 1), ("y", Val.vnum 2)])]
      [("a", Val.vmap [("y", Val.vnum 3)])]
      [("x", Val.vnum 1), ("y", Val.vnum 2)] [("y", Val.vnum 3)] "a"
      (by simp [wfD, wfV, keyMem]) (by simp [wfD, wfV, keyMem])
      (by simp [lookupD]) (by simp [lookupD])).1,
   by simp [deep_merge, lookupD, setD, deepcopy]⟩

/-- C4: a non-map source value (sequence, scalar or null) unconditionally
overwrites whatever the target holds at that key, with no element-wise merging
of sequences; in particular a nested map in the target is wholly replaced. -/
theorem C4_nonmap_overwrite (t s : Dict) (q : String) (v : Val)
    (hs : wfD s = true) (hv : lookupD s q = some v)
    (hnm : ∀ m, v ≠ Val.vmap m) :
    lookupD (deep_merge t s) q = some v := by
  rw [lookupD_deep_merge t hs q, hv]
  dsimp only
  rw [mergeVal_nonmap_src hnm]

/-- C4 witness: merging a mapping of a to the nested map (x: 1) with a later
mapping of a to the string "scalar" leaves a bound to the string: the map is
wholly replaced by the scalar. -/
theorem C4_nonmap_overwrite_witness :
    lookupD (deep_merge [("a", Val.vmap [("x", Val.vnum 1)])]
        [("a", Val.vstr "scalar")]) "a" = some (Val.vstr "scalar") ∧
    deep_merge [("a", Val.vmap [("x", Val.vnum 1)])]
        [("a", Val.vstr "scalar")] = [("a", Val.vstr "scalar")] :=
  ⟨C4_nonmap_overwrite [("a", Val.vmap [("x", Val.vnum 1)])]
      [("a", Val.vstr "scalar")] "a" (Val.vstr "scalar")
      (by simp [wfD, wfV, keyMem]) (by simp [lookupD])
      (fun m h => Val.noConfusion h),
   by simp [deep_merge, lookupD, setD, deepcopy]⟩


theorem processOne_files_found (t : Tally) (f : TemplateCase) :
    (processOne t f).files_found = t.files_found + 1 := by
  unfold processOne
  by_cases hm : f.mkdirOk = false
  · simp [hm]
  · simp only [hm, if_false]
    cases f.render with
    | error e => simp
    | ok c =>
      by_cases hs : strippedEmpty c
      · simp [hs]
      · by_cases hw : f.writeOk <;> simp [hs, hw]

theorem processOne_outcome (t : Tally) (f : TemplateCase) :
    (processOne t f).succeeded + (processOne t f).skipped +
      (processOne t f).failed =
    t.succeeded + t.skipped + t.failed + 1 := by
  unfold processOne
  by_cases hm : f.mkdirOk = false
  · simp [hm]
    omega
  · simp only [hm, if_false]
    cases f.render with
    | error e =>
      simp
      omega
    | ok c =>
      by_cases hs : strippedEmpty c
      · simp [hs]
        omega
      · by_cases hw : f.writeOk <;> simp [hs, hw] <;> omega

theorem process_tally_aux : ∀ (files : List TemplateCase) (t0 : Tally),
    (files.foldl processOne t0).succeeded + (files.foldl processOne t0).skipped +
      (files.foldl processOne t0).failed + t0.files_found =
    (files.foldl processOne t0).files_found +
      (t0.succeeded + t0.skipped + t0.failed) := by
  intro files
  induction files with
  | nil =>
    intro t0
    simp only [List.foldl_nil]
    omega
  | cons f rest ih =>
    intro t0
    rw [List.foldl_cons]
    have h1 := processOne_files_found t0 f
    have h2 := processOne_outcome t0 f
    have h3 := ih (processOne t0 f)
    omega

/-- C1: after a full `process_templates` pass, the Processing Tally satisfies
`succeeded + skipped + failed = files_found`: every discovered template file
takes exactly one of the three outcome paths of the loop body — including
files whose output-subdirectory creation fails, which take a failure path and
are neither succeeded nor skipped — so none is double-counted or dropped.
The same loop appears verbatim in src/template_tf.py. -/
theorem C1_tally_invariant (files : List TemplateCase) :
    (process_templates files).succeeded + (process_templates files).skipped +
      (process_templates files).failed = (process_templates files).files_found := by
  have h := process_tally_aux files emptyTally
  simp only [process_templates, emptyTally] at h ⊢
  omega

/-- C9: a template whose rendered text is all whitespace (or empty) is tallied
`skipped`, is not tallied `succeeded` or `failed`, and contributes no output
write: processing it only increments `files_found` and `skipped`. -/
theorem C9_blank_render_skipped (t : Tally) (f : TemplateCase) (content : String)
    (hm : f.mkdirOk = true) (hr : f.render = Except.ok content)
    (hb : strippedEmpty content = true) :
    processOne t f =
      { t with files_found := t.files_found + 1, skipped := t.skipped + 1 } := by
  unfold processOne
  simp [hm, hr, hb]

/-- C9 witness: the blank-render rule applied to a concrete all-whitespace
render in a fresh run — once for ASCII whitespace and once for Unicode
whitespace (no-break space and ideographic space), both of which a bare
`str.strip()` removes. -/
theorem C9_blank_render_skipped_witness :
    strippedEmpty "  \n\t " = true ∧
    strippedEmpty "\u00A0\u3000\u2028" = true ∧
    processOne emptyTally
        { relPath := "a.txt.j2".toList, mkdirOk := true,
          render := Except.ok "  \n\t ", writeOk := true } =
      { files_found := 1, succeeded := 0, skipped := 1, failed := 0,
        writes := [] } ∧
    processOne emptyTally
        { relPath := "b.txt.j2".toList, mkdirOk := true,
          render := Except.ok "\u00A0\u3000\u2028", writeOk := true } =
      { files_found := 1, succeeded := 0, skipped := 1, failed := 0,
        writes := [] } :=
  ⟨by decide, by decide,
   (C9_blank_render_skipped emptyTally
      { relPath := "a.txt.j2".toList, mkdirOk := true,
        render := Except.ok "  \n\t ", writeOk := true }
      "  \n\t " rfl rfl (by decide)).trans rfl,
   (C9_blank_render_skipped emptyTally
      { relPath := "b.txt.j2".toList, mkdirOk := true,
        render := Except.ok "\u00A0\u3000\u2028", writeOk := true }
      "\u00A0\u3000\u2028" rfl rfl (by decide)).trans rfl⟩

/-- C6: the loader classifies failures into distinguishable kinds, each naming
the offending path: a missing file raises not-found, an unreadable file raises
an input-output error, malformed syntax raises a parse error, and a well-formed
document whose top level is some non-map value raises an invalid-format error;
the parse-error and invalid-format kinds are distinct. -/
theorem C6_loader_error_taxonomy (fs : String → FileData) (p : String)
    (rest : List String) :
    (fs p = FileData.absent →
      load_and_merge_data fs (p :: rest) =
        Except.error (LoadError.notFound p)) ∧
    (fs p = FileData.readError →
      load_and_merge_data fs (p :: rest) =
        Except.error (LoadError.ioError p)) ∧
    (fs p = FileData.parseError →
      load_and_merge_data fs (p :: rest) =
        Except.error (LoadError.parseError p)) ∧
    (∀ v, fs p = FileData.parsed (some v) → (∀ m, v ≠ Val.vmap m) →
      load_and_merge_data fs (p :: rest) =
        Except.error (LoadError.invalidFormat p)) ∧
    (∀ p2, LoadError.parseError p ≠ LoadError.invalidFormat p2) := by
  refine ⟨?_, ?_, ?_, ?_, ?_⟩
  · intro h
    simp [load_and_merge_data, loadLoop, h]
  · intro h
    simp [load_and_merge_data, loadLoop, h]
  · intro h
    simp [load_and_merge_data, loadLoop, h]
  · intro v h hnm
    cases v with
    | vmap m => exact absurd rfl (hnm m)
    | vnull => simp [load_and_merge_data, loadLoop, h]
    | vbool b => simp [load_and_merge_data, loadLoop, h]
    | vnum n => simp [load_and_merge_data, loadLoop, h]
    | vstr s => simp [load_and_merge_data, loadLoop, h]
    | vseq xs => simp [load_and_merge_data, loadLoop, h]
  · intro p2 h
    cases h

/-- C6 witness: a file that parses to a bare sequence raises invalid-format, a
file with broken syntax raises parse-error, and the two kinds differ. -/
theorem C6_loader_error_taxonomy_witness :
    load_and_merge_data
        (fun q => if q = "seq.yaml"
          then FileData.parsed (some (Val.vseq [Val.vnum 1]))
          else FileData.parseError)
        ["seq.yaml"] =
      Except.error (LoadError.invalidFormat "seq.yaml") ∧
    load_and_merge_data (fun _ => FileData.parseError) ["bad.yaml"] =
      Except.error (LoadError.parseError "bad.yaml") ∧
    LoadError.parseError "x.yaml" ≠ LoadError.invalidFormat "x.yaml" :=
  ⟨(C6_loader_error_taxonomy
      (fun q => if q = "seq.yaml"
        then FileData.parsed (some (Val.vseq [Val.vnum 1]))
        else FileData.parseError)
      "seq.yaml" []).2.2.2.1 (Val.vseq [Val.vnum 1]) rfl
      (fun m h => Val.noConfusion h),
   (C6_loader_error_taxonomy (fun _ => FileData.parseError)
      "bad.yaml" []).2.2.1 rfl,
   (C6_loader_error_taxonomy (fun _ => FileData.parseError)
      "x.yaml" []).2.2.2.2 "x.yaml"⟩

/-- C10: a data file whose parsed content is null (an empty file) is skipped
without an error and contributes nothing: the accumulator after processing it
is the accumulator before it, and loading continues with the remaining files. -/
theorem C10_empty_file_skipped (fs : String → FileData) (p : String)
    (rest : List String) (acc : Dict) (h : fs p = FileData.parsed none) :
    loadLoop fs (p :: rest) acc = loadLoop fs rest acc := by
  simp [loadLoop, h]

/-- C10 witness: an empty data file in front of no further files returns the
accumulator unchanged and raises nothing. -/
theorem C10_empty_file_skipped_witness :
    loadLoop (fun _ => FileData.parsed none) ["empty.yaml"]
        [("k", Val.vnum 1)] =
      Except.ok [("k", Val.vnum 1)] :=
  (C10_empty_file_skipped (fun _ => FileData.parsed none) "empty.yaml" []
      [("k", Val.vnum 1)] rfl).trans rfl

theorem findLastDot_append (xs ys : List Char) :
    findLastDot (xs ++ ys) =
      match findLastDot ys with
      | some i => some (xs.length + i)
      | none => findLastDot xs := by
  induction xs with
  | nil =>
    simp only [List.nil_append, List.length_nil]
    cases findLastDot ys <;> simp [findLastDot]
  | cons c t ih =>
    rw [List.cons_append, findLastDot, ih]
    cases h : findLastDot ys with
    | none => rw [findLastDot]
    | some i => simp [List.length_cons]; omega

/-- C7 counterexample: a file whose name is exactly ".j2" is matched by the
template glob, but `with_suffix("")` does not strip the marker — pathlib
treats the leading dot as part of the stem, so `Path(".j2").suffix` is empty
and the derived output name is unchanged rather than the stripped name the
claim's rule would give; the same happens for such a file in a
subdirectory. -/
theorem C7_counterexample :
    globMatchJ2 ['.', 'j', '2'] = true ∧
    outName ['.', 'j', '2'] = ['.', 'j', '2'] ∧
    outName ['.', 'j', '2'] ≠
      (['.', 'j', '2']).take ((['.', 'j', '2']).length - 3) ∧
    globMatchJ2 "sub/.j2".toList = true ∧
    outName "sub/.j2".toList = "sub/.j2".toList ∧
    outName "sub/.j2".toList ≠
      ("sub/.j2".toList).take (("sub/.j2".toList).length - 3) := by
  refine ⟨by decide, by decide, by decide, by decide, by decide, by decide⟩

theorem nameWithSuffixEmpty_strip (pre : List Char) (hpre : pre ≠ []) :
    nameWithSuffixEmpty (pre ++ DEFAULT_TEMPLATE_SUFFIX) = pre := by
  have hdot : findLastDot (pre ++ DEFAULT_TEMPLATE_SUFFIX) = some pre.length := by
    rw [findLastDot_append]
    rfl
  have hlen : (pre ++ DEFAULT_TEMPLATE_SUFFIX).length = pre.length + 3 := by
    simp [DEFAULT_TEMPLATE_SUFFIX]
  have hpos : 0 < pre.length := List.length_pos.mpr hpre
  rw [nameWithSuffixEmpty, hdot]
  dsimp only
  rw [hlen, if_pos (by omega)]
  exact List.take_left pre DEFAULT_TEMPLATE_SUFFIX

theorem pathDir_append_pathName (path : List Char) :
    pathDir path ++ pathName path = path := by
  rw [pathDir, pathName, ← List.reverse_append,
    List.takeWhile_append_dropWhile, List.reverse_reverse]

theorem prefix_takeWhile {α : Type} (p : α → Bool) :
    ∀ (s l : List α), s <+: l → (∀ c ∈ s, p c = true) → s <+: l.takeWhile p := by
  intro s
  induction s with
  | nil =>
    intro l _ _
    exact List.nil_prefix
  | cons c s2 ih =>
    intro l hp hall
    obtain ⟨t, ht⟩ := hp
    subst ht
    rw [List.cons_append, List.takeWhile_cons_of_pos
      (hall c (List.mem_cons_self _ _))]
    obtain ⟨u, hu⟩ := ih (s2 ++ t) (List.prefix_append s2 t)
      (fun x hx => hall x (List.mem_cons_of_mem _ hx))
    exact ⟨u, by rw [List.cons_append, hu]⟩

theorem suffix_pathName {s path : List Char} (hs : s <:+ path)
    (hnos : ∀ c ∈ s, (decide (c ≠ '/')) = true) : s <:+ pathName path := by
  have h1 : s.reverse <+: path.reverse := List.reverse_prefix.mpr hs
  have h2 : s.reverse <+: path.reverse.takeWhile (fun c => decide (c ≠ '/')) :=
    prefix_takeWhile _ _ _ h1 (fun c hc => hnos c (List.mem_reverse.mp hc))
  have h3 := List.reverse_suffix.mpr h2
  rw [List.reverse_reverse] at h3
  rw [pathName]
  exact h3

/-- C7 (amended): the template glob matches exactly the paths carrying the
".j2" suffix; for every discovered template file whose final path component is
not exactly ".j2", the derived output path equals the relative path with the
marker suffix stripped (so `a.txt.j2` yields `a.txt`, also in
subdirectories); a file whose name is exactly ".j2" keeps its path unchanged,
because pathlib counts its leading dot as part of the stem.  Every template
path determines exactly one output path, `outName` being a function. -/
theorem C7_output_path_strip :
    (∀ path : List Char, globMatchJ2 path = true ↔
      ∃ pre : List Char, pre ++ DEFAULT_TEMPLATE_SUFFIX = path) ∧
    (∀ path : List Char, globMatchJ2 path = true →
      pathName path ≠ DEFAULT_TEMPLATE_SUFFIX →
      withSuffixEmpty path = path.take (path.length - 3)) ∧
    (∀ path : List Char, pathName path = DEFAULT_TEMPLATE_SUFFIX →
      withSuffixEmpty path = path) := by
  refine ⟨?_, ?_, ?_⟩
  · intro path
    rw [globMatchJ2, List.isSuffixOf_iff_suffix]
    exact Iff.rfl
  · intro path hglob hname
    have hs : DEFAULT_TEMPLATE_SUFFIX <:+ path := by
      rw [globMatchJ2, List.isSuffixOf_iff_suffix] at hglob
      exact hglob
    have hsn : DEFAULT_TEMPLATE_SUFFIX <:+ pathName path :=
      suffix_pathName hs (by decide)
    obtain ⟨npre, hnpre⟩ := hsn
    have hnprene : npre ≠ [] := by
      intro he
      rw [he, List.nil_append] at hnpre
      exact hname hnpre.symm
    have hpath : (pathDir path ++ npre) ++ DEFAULT_TEMPLATE_SUFFIX = path := by
      rw [List.append_assoc, hnpre, pathDir_append_pathName]
    have hlhs : withSuffixEmpty path = pathDir path ++ npre := by
      rw [withSuffixEmpty, ← hnpre, nameWithSuffixEmpty_strip npre hnprene]
    have hrhs : path.take (path.length - 3) = pathDir path ++ npre := by
      calc path.take (path.length - 3)
          = ((pathDir path ++ npre) ++ DEFAULT_TEMPLATE_SUFFIX).take
              (((pathDir path ++ npre) ++ DEFAULT_TEMPLATE_SUFFIX).length - 3) := by
            rw [hpath]
        _ = pathDir path ++ npre := by
            apply List.take_left'
            simp [DEFAULT_TEMPLATE_SUFFIX]
            omega
    rw [hlhs, hrhs]
  · intro path hname
    have hid : nameWithSuffixEmpty DEFAULT_TEMPLATE_SUFFIX =
        DEFAULT_TEMPLATE_SUFFIX := by decide
    rw [withSuffixEmpty, hname, hid, ← hname, pathDir_append_pathName]

/-- C7 witness: the amended rule applied to the template names "a.txt.j2" and
"sub/dir/a.txt.j2", both discovered by the glob, yielding output paths
"a.txt" and "sub/dir/a.txt". -/
theorem C7_output_path_strip_witness :
    globMatchJ2 "a.txt.j2".toList = true ∧
    outName "a.txt.j2".toList = "a.txt".toList ∧
    outName "sub/dir/a.txt.j2".toList = "sub/dir/a.txt".toList :=
  ⟨by decide,
   by
    have h := C7_output_path_strip.2.1 "a.txt.j2".toList (by decide) (by decide)
    rw [outName, h]
    decide,
   by
    have h := C7_output_path_strip.2.1 "sub/dir/a.txt.j2".toList (by decide)
      (by decide)
    rw [outName, h]
    decide⟩

/-- C8: the copier candidate set is exactly the set difference between all
entries and the glob-matched template entries, restricted to regular files —
membership is equivalent to being a regular file whose name lacks the marker
suffix; and the renderer and copier partition the regular files: each is
processed by exactly one of the two components. -/
theorem C8_copier_partition (entries : List FsEntry) (e : FsEntry) :
    (e ∈ copier_candidates entries ↔
      e ∈ entries ∧ e.isFile = true ∧ globMatchJ2 e.path = false) ∧
    (e ∈ entries → e.isFile = true →
      (e ∈ renderer_files entries ↔ e ∉ copier_candidates entries)) := by
  have h1 : e ∈ glob_j2 entries ↔ e ∈ entries ∧ globMatchJ2 e.path = true := by
    simp [glob_j2, List.mem_filter]
  have h2 : e ∈ copier_candidates entries ↔
      e ∈ entries ∧ e.isFile = true ∧ globMatchJ2 e.path = false := by
    simp only [copier_candidates, non_template_files, List.mem_filter,
      decide_eq_true_eq, h1]
    constructor
    · rintro ⟨⟨he, hng⟩, hf⟩
      refine ⟨he, hf, ?_⟩
      cases hg : globMatchJ2 e.path with
      | false => rfl
      | true => exact absurd ⟨he, hg⟩ hng
    · rintro ⟨he, hf, hg⟩
      exact ⟨⟨he, fun hmem => by rw [hg] at hmem; cases hmem.2⟩, hf⟩
  refine ⟨h2, ?_⟩
  intro he hf
  rw [renderer_files, List.mem_filter, h1, h2]
  cases hg : globMatchJ2 e.path <;> simp [he, hf]

/-- C8 witness: with `a.txt.j2` (template) and `b.txt` (static) in the same
directory, the renderer's set is exactly the template and the copier's set is
exactly the static file, and the template is not a copier candidate. -/
theorem C8_copier_partition_witness :
    renderer_files
        [{ path := "a.txt.j2".toList, isFile := true },
         { path := "b.txt".toList, isFile := true }] =
      [{ path := "a.txt.j2".toList, isFile := true }] ∧
    copier_candidates
        [{ path := "a.txt.j2".toList, isFile := true },
         { path := "b.txt".toList, isFile := true }] =
      [{ path := "b.txt".toList, isFile := true }] ∧
    ¬ ({ path := "a.txt.j2".toList, isFile := true } : FsEntry) ∈
        copier_candidates
          [{ path := "a.txt.j2".toList, isFile := true },
           { path := "b.txt".toList, isFile := true }] :=
  ⟨by decide, by decide,
   ((C8_copier_partition
        [{ path := "a.txt.j2".toList, isFile := true },
         { path := "b.txt".toList, isFile := true }]
        { path := "a.txt.j2".toList, isFile := true }).2
      (by decide) rfl).mp (by decide)⟩


/-- C5 counterexample: refutation of the independent-copy and no-mutation
claim at concrete heaps.  Part one (absent key): merging source dict 1 into
the empty target dict 0 of `shareHeap` leaves the result's `a.lst` and the
source's `a.lst` pointing at the very same list object (address 3), and
overwriting that list through the merged result is observed when reading
through the source — so the replacement installed for an absent key is not an
independent copy.  Part two (shared node): in `aliasHeap`, where target and
source share dict 3, merging changes the value the source reads at `b.x` from
1 to 2 — the source is mutated. -/
theorem C5_counterexample :
    (mergeH 10 shareHeap 0 1).bind (fun h => readPath2 h 0 "a" "lst") =
        some (HV.hlist 3) ∧
    (mergeH 10 shareHeap 0 1).bind (fun h => readPath2 h 1 "a" "lst") =
        some (HV.hlist 3) ∧
    getList shareHeap 3 = [1] ∧
    (mergeH 10 shareHeap 0 1).bind
        (fun h => readListPath2 (setListObj h 3 [99]) 1 "a" "lst") =
      some [99] ∧
    readPath2 aliasHeap 1 "b" "x" = some (HV.hint 1) ∧
    (mergeH 10 aliasHeap 0 1).bind (fun h => readPath2 h 1 "b" "x") =
        some (HV.hint 2) := by
  decide

theorem lookupA_mem {α : Type} {l : List (Nat × α)} {q : Nat} {v : α}
    (h : lookupA l q = some v) : (q, v) ∈ l := by
  induction l with
  | nil => cases h
  | cons p t ih =>
    obtain ⟨k, w⟩ := p
    by_cases hk : k = q
    · subst hk
      simp [lookupA] at h
      simp [h]
    · simp [lookupA, hk] at h
      exact List.mem_cons_of_mem _ (ih h)

theorem lookupA_setA_ne {α : Type} (l : List (Nat × α)) (a : Nat) (x : α)
    {b : Nat} (hab : a ≠ b) : lookupA (setA l a x) b = lookupA l b := by
  induction l with
  | nil => rfl
  | cons p t ih =>
    obtain ⟨k, w⟩ := p
    by_cases hk : k = a
    · subst hk
      simp [setA, lookupA, hab]
    · by_cases hb : k = b <;> simp [setA, lookupA, hk, hb, ih, Ne.symm hab]

theorem lookupA_setA_self {α : Type} (l : List (Nat × α)) (a : Nat) (x : α) :
    lookupA (setA l a x) a = (lookupA l a).map (fun _ => x) := by
  induction l with
  | nil => rfl
  | cons p t ih =>
    obtain ⟨k, w⟩ := p
    by_cases hk : k = a
    · subst hk
      simp [setA, lookupA]
    · simp [setA, lookupA, hk, ih]

theorem setA_mem {α : Type} {l : List (Nat × α)} {a : Nat} {x : α}
    {p : Nat × α} (h : p ∈ setA l a x) :
    p ∈ l ∨ (∃ w, (p.1, w) ∈ l ∧ p.1 = a ∧ p.2 = x) := by
  induction l with
  | nil => cases h
  | cons q t ih =>
    obtain ⟨k, w⟩ := q
    by_cases hk : k = a
    · subst hk
      simp only [setA, if_pos rfl] at h
      rcases List.mem_cons.mp h with h | h
      · subst h
        exact Or.inr ⟨w, by simp⟩
      · exact Or.inl (List.mem_cons_of_mem _ h)
    · simp only [setA, if_neg hk] at h
      rcases List.mem_cons.mp h with h | h
      · exact Or.inl (by simp [h])
      · rcases ih h with h2 | ⟨w2, hw2⟩
        · exact Or.inl (List.mem_cons_of_mem _ h2)
        · exact Or.inr ⟨w2, List.mem_cons_of_mem _ hw2.1, hw2.2⟩

theorem lookupA_append_ne {α : Type} (l : List (Nat × α)) (n : Nat) (x : α)
    {b : Nat} (hb : b ≠ n) : lookupA (l ++ [(n, x)]) b = lookupA l b := by
  induction l with
  | nil => simp [lookupA, Ne.symm hb]
  | cons p t ih =>
    obtain ⟨k, w⟩ := p
    by_cases hk : k = b <;> simp [lookupA, hk, ih]

theorem lookupA_append_self {α : Type} {l : List (Nat × α)} {n : Nat} (x : α)
    (hnone : lookupA l n = none) : lookupA (l ++ [(n, x)]) n = some x := by
  induction l with
  | nil => simp [lookupA]
  | cons p t ih =>
    obtain ⟨k, w⟩ := p
    by_cases hk : k = n
    · subst hk
      simp [lookupA] at hnone
    · simp [lookupA, hk] at hnone ⊢
      exact ih hnone

theorem lookupH_mem {es : List (String × HV)} {k : String} {v : HV}
    (h : lookupH es k = some v) : (k, v) ∈ es := by
  induction es with
  | nil => cases h
  | cons p t ih =>
    obtain ⟨k2, w⟩ := p
    by_cases hk : k2 = k
    · subst hk
      simp [lookupH] at h
      simp [h]
    · simp [lookupH, hk] at h
      exact List.mem_cons_of_mem _ (ih h)

theorem setH_mem {es : List (String × HV)} {k : String} {v : HV}
    {p : String × HV} (h : p ∈ setH es k v) : p ∈ es ∨ p = (k, v) := by
  induction es with
  | nil =>
    simp [setH] at h
    simp [h]
  | cons q t ih =>
    obtain ⟨k2, w⟩ := q
    by_cases hk : k2 = k
    · subst hk
      simp only [setH, if_pos rfl] at h
      rcases List.mem_cons.mp h with h | h
      · right
        exact h
      · left
        exact List.mem_cons_of_mem _ h
    · simp only [setH, if_neg hk] at h
      rcases List.mem_cons.mp h with h | h
      · left
        simp [h]
      · rcases ih h with h2 | h2
        · exact Or.inl (List.mem_cons_of_mem _ h2)
        · exact Or.inr h2

theorem setH_self_mem (es : List (String × HV)) (k : String) (v : HV) :
    (k, v) ∈ setH es k v := by
  induction es with
  | nil => simp [setH]
  | cons q t ih =>
    obtain ⟨k2, w⟩ := q
    by_cases hk : k2 = k
    · subst hk
      simp [setH]
    · simp only [setH, if_neg hk]
      exact List.mem_cons_of_mem _ ih


theorem heapWF_unfold {h : Heap} (hwf : heapWF h = true) :
    (∀ p ∈ h.dicts, p.1 < h.next ∧ ∀ q ∈ p.2, hvOk h.next q.2 = true) ∧
    (∀ p ∈ h.lists, p.1 < h.next) := by
  rw [heapWF, Bool.and_eq_true, List.all_eq_true, List.all_eq_true] at hwf
  constructor
  · intro p hp
    have h2 := hwf.1 p hp
    rw [Bool.and_eq_true, List.all_eq_true] at h2
    exact ⟨by simpa using h2.1, fun q hq => h2.2 q hq⟩
  · intro p hp
    simpa using hwf.2 p hp

theorem heapWF_intro {h : Heap}
    (h1 : ∀ p ∈ h.dicts, p.1 < h.next ∧ ∀ q ∈ p.2, hvOk h.next q.2 = true)
    (h2 : ∀ p ∈ h.lists, p.1 < h.next) : heapWF h = true := by
  rw [heapWF, Bool.and_eq_true, List.all_eq_true, List.all_eq_true]
  constructor
  · intro p hp
    rw [Bool.and_eq_true, List.all_eq_true]
    exact ⟨by simpa using (h1 p hp).1, fun q hq => (h1 p hp).2 q hq⟩
  · intro p hp
    simpa using h2 p hp

theorem hvOk_mono {n m : Nat} {v : HV} (h : hvOk n v = true) (hnm : n ≤ m) :
    hvOk m v = true := by
  cases v with
  | hint x => rfl
  | hlist a =>
    rw [hvOk, decide_eq_true_eq] at h ⊢
    omega
  | hdict a =>
    rw [hvOk, decide_eq_true_eq] at h ⊢
    omega

theorem heapWF_dict_val {h : Heap} (hwf : heapWF h = true) {a : Nat}
    {q : String × HV} (hq : q ∈ getDict h a) : hvOk h.next q.2 = true := by
  rw [getDict] at hq
  cases hl : lookupA h.dicts a with
  | none => rw [hl] at hq; cases hq
  | some es =>
    rw [hl] at hq
    exact ((heapWF_unfold hwf).1 (a, es) (lookupA_mem hl)).2 q hq

theorem getDict_ge_next {h : Heap} (hwf : heapWF h = true) {d : Nat}
    (hd : h.next ≤ d) : getDict h d = [] := by
  rw [getDict]
  cases hl : lookupA h.dicts d with
  | none => rfl
  | some es =>
    have := ((heapWF_unfold hwf).1 (d, es) (lookupA_mem hl)).1
    omega

theorem getList_ge_next {h : Heap} (hwf : heapWF h = true) {l : Nat}
    (hl : h.next ≤ l) : getList h l = [] := by
  rw [getList]
  cases hx : lookupA h.lists l with
  | none => rfl
  | some xs =>
    have := (heapWF_unfold hwf).2 (l, xs) (lookupA_mem hx)
    omega

theorem setDictEntry_next (h : Heap) (a : Nat) (k : String) (v : HV) :
    (setDictEntry h a k v).next = h.next := rfl

theorem setDictEntry_lists (h : Heap) (a : Nat) (k : String) (v : HV) :
    (setDictEntry h a k v).lists = h.lists := rfl

theorem getList_setDictEntry (h : Heap) (a : Nat) (k : String) (v : HV)
    (l : Nat) : getList (setDictEntry h a k v) l = getList h l := rfl

theorem getDict_setDictEntry_ne (h : Heap) (a : Nat) (k : String) (v : HV)
    {b : Nat} (hab : a ≠ b) : getDict (setDictEntry h a k v) b = getDict h b := by
  rw [getDict, getDict, setDictEntry, setDictObj]
  rw [show ({ h with dicts := setA h.dicts a (setH (getDict h a) k v) } : Heap).dicts
      = setA h.dicts a (setH (getDict h a) k v) from rfl,
    lookupA_setA_ne _ _ _ hab]

theorem getDict_setDictEntry_mem {h : Heap} {a : Nat} {k : String} {v : HV}
    {d : Nat} {q : String × HV} (hq : q ∈ getDict (setDictEntry h a k v) d) :
    q ∈ getDict h d ∨ (d = a ∧ q = (k, v)) := by
  by_cases hd : a = d
  · subst hd
    rw [getDict, setDictEntry, setDictObj] at hq
    rw [show ({ h with dicts := setA h.dicts a (setH (getDict h a) k v) } : Heap).dicts
        = setA h.dicts a (setH (getDict h a) k v) from rfl,
      lookupA_setA_self] at hq
    cases hl : lookupA h.dicts a with
    | none => rw [hl] at hq; cases hq
    | some es =>
      rw [hl] at hq
      have hes : getDict h a = es := by rw [getDict, hl]; rfl
      rw [hes] at hq
      rcases setH_mem hq with h2 | h2
      · exact Or.inl (by rw [hes]; exact h2)
      · exact Or.inr ⟨rfl, h2⟩
  · rw [getDict_setDictEntry_ne _ _ _ _ hd] at hq
    exact Or.inl hq

theorem heapWF_setDictEntry {h : Heap} {a : Nat} {k : String} {v : HV}
    (hwf : heapWF h = true) (hv : hvOk h.next v = true) :
    heapWF (setDictEntry h a k v) = true := by
  apply heapWF_intro
  · intro p hp
    rw [setDictEntry_next]
    have hp2 : p ∈ setA h.dicts a (setH (getDict h a) k v) := hp
    rcases setA_mem hp2 with h2 | ⟨w, hw, hpa, hpes⟩
    · obtain ⟨hk2, hv2⟩ := (heapWF_unfold hwf).1 p h2
      exact ⟨hk2, hv2⟩
    · refine ⟨((heapWF_unfold hwf).1 (p.1, w) hw).1, ?_⟩
      intro q hq
      rw [hpes] at hq
      rcases setH_mem hq with h3 | h3
      · exact heapWF_dict_val hwf h3
      · rw [h3]
        exact hv
  · intro p hp
    exact (heapWF_unfold hwf).2 p hp

theorem allocDict_dicts (h : Heap) :
    (allocDict h).2.dicts = h.dicts ++ [(h.next, [])] := rfl

theorem allocDict_next (h : Heap) : (allocDict h).2.next = h.next + 1 := rfl

theorem allocDict_fst (h : Heap) : (allocDict h).1 = h.next := rfl

theorem allocDict_lists (h : Heap) : (allocDict h).2.lists = h.lists := rfl

theorem getList_allocDict (h : Heap) (b : Nat) :
    getList (allocDict h).2 b = getList h b := rfl

theorem getDict_allocDict_ne (h : Heap) {b : Nat} (hb : b ≠ h.next) :
    getDict (allocDict h).2 b = getDict h b := by
  rw [getDict, getDict, allocDict_dicts, lookupA_append_ne _ _ _ hb]

theorem lookupA_none_of_wf {h : Heap} (hwf : heapWF h = true) :
    lookupA h.dicts h.next = none := by
  cases hl : lookupA h.dicts h.next with
  | none => rfl
  | some es =>
    have := ((heapWF_unfold hwf).1 (h.next, es) (lookupA_mem hl)).1
    omega

theorem getDict_allocDict_self {h : Heap} (hwf : heapWF h = true) :
    getDict (allocDict h).2 h.next = [] := by
  rw [getDict, allocDict_dicts, lookupA_append_self [] (lookupA_none_of_wf hwf)]
  rfl

theorem heapWF_allocDict {h : Heap} (hwf : heapWF h = true) :
    heapWF (allocDict h).2 = true := by
  apply heapWF_intro
  · intro p hp
    rw [allocDict_dicts] at hp
    rw [allocDict_next]
    rcases List.mem_append.mp hp with h2 | h2
    · obtain ⟨hk, hv⟩ := (heapWF_unfold hwf).1 p h2
      exact ⟨by omega, fun q hq => hvOk_mono (hv q hq) (by omega)⟩
    · simp at h2
      subst h2
      exact ⟨by simp, fun q hq => by simp at hq⟩
  · intro p hp
    rw [allocDict_lists] at hp
    rw [allocDict_next]
    have := (heapWF_unfold hwf).2 p hp
    omega

theorem allocList_lists (h : Heap) (xs : List Int) :
    (allocList h xs).2.lists = h.lists ++ [(h.next, xs)] := rfl

theorem allocList_next (h : Heap) (xs : List Int) :
    (allocList h xs).2.next = h.next + 1 := rfl

theorem allocList_fst (h : Heap) (xs : List Int) :
    (allocList h xs).1 = h.next := rfl

theorem getList_allocList_ne (h : Heap) (xs : List Int) {b : Nat}
    (hb : b ≠ h.next) : getList (allocList h xs).2 b = getList h b := by
  rw [getList, getList, allocList_lists, lookupA_append_ne _ _ _ hb]

theorem getDict_allocList (h : Heap) (xs : List Int) (b : Nat) :
    getDict (allocList h xs).2 b = getDict h b := rfl

theorem heapWF_allocList {h : Heap} (hwf : heapWF h = true) (xs : List Int) :
    heapWF (allocList h xs).2 = true := by
  apply heapWF_intro
  · intro p hp
    rw [allocList_next]
    obtain ⟨hk, hv⟩ := (heapWF_unfold hwf).1 p hp
    exact ⟨by omega, fun q hq => hvOk_mono (hv q hq) (by omega)⟩
  · intro p hp
    rw [allocList_lists] at hp
    rw [allocList_next]
    rcases List.mem_append.mp hp with h2 | h2
    · have := (heapWF_unfold hwf).2 p h2
      omega
    · simp at h2
      subst h2
      simp

theorem DReach_trans {h : Heap} {r m d : Nat} (h1 : DReach h r m)
    (h2 : DReach h m d) : DReach h r d := by
  induction h2 with
  | refl => exact h1
  | step hr he ih => exact DReach.step ih he

theorem DReach_empty_root {h : Heap} {r d : Nat} (hr : getDict h r = [])
    (hd : DReach h r d) : d = r := by
  induction hd with
  | refl => rfl
  | step ha he ih =>
    subst ih
    rw [hr] at he
    cases he

/-- Reachability can only shrink modulo fresh addresses: if every dict edge of
the later heap either existed before or points into fresh space, then any
pre-existing dict reachable later was reachable before. -/
theorem reach_mono {h h2 : Heap} {ta : Nat} (hwf : heapWF h = true)
    (hE : ∀ d k b, (k, HV.hdict b) ∈ getDict h2 d →
      (k, HV.hdict b) ∈ getDict h d ∨ h.next ≤ b) :
    ∀ d, DReach h2 ta d → d < h.next → DReach h ta d := by
  intro d hd
  induction hd with
  | refl => intro _; exact DReach.refl
  | step ha he ih =>
    rename_i a b k
    intro hlt
    rcases hE _ _ _ he with h3 | h3
    · have halt : a < h.next := by
        by_contra hge
        rw [getDict_ge_next hwf (Nat.le_of_not_lt hge)] at h3
        cases h3
      exact DReach.step (ih halt) h3
    · omega

theorem MergeOk_refl {ta : Nat} {h : Heap} (hwf : heapWF h = true) :
    MergeOk ta h h :=
  ⟨le_rfl, hwf, fun _ _ => rfl, fun _ _ _ => rfl,
   fun _ _ _ hm => Or.inl hm⟩

theorem MergeOk_trans {ta : Nat} {h h1 h2 : Heap} (hwf : heapWF h = true)
    (m1 : MergeOk ta h h1) (m2 : MergeOk ta h1 h2) : MergeOk ta h h2 := by
  obtain ⟨n1, w1, l1, d1, e1⟩ := m1
  obtain ⟨n2, w2, l2, d2, e2⟩ := m2
  refine ⟨le_trans n1 n2, w2, ?_, ?_, ?_⟩
  · intro l hl
    rw [l2 l (lt_of_lt_of_le hl n1), l1 l hl]
  · intro d hd hr
    have hr1 : ¬ DReach h1 ta d := fun hr1 => hr (reach_mono hwf e1 d hr1 hd)
    rw [d2 d (lt_of_lt_of_le hd n1) hr1, d1 d hd hr]
  · intro d k b hm
    rcases e2 d k b hm with h3 | h3
    · exact e1 d k b h3
    · exact Or.inr (le_trans n1 h3)

theorem MergeOk_root {ta n : Nat} {h h1 : Heap} (hr : DReach h ta n)
    (m : MergeOk n h h1) : MergeOk ta h h1 := by
  obtain ⟨n1, w1, l1, d1, e1⟩ := m
  refine ⟨n1, w1, l1, ?_, e1⟩
  intro d hd hreach
  exact d1 d hd (fun h2 => hreach (DReach_trans hr h2))

/-- Writing a non-dict source value into the target is a `MergeOk` step. -/
theorem MergeOk_set_plain {h : Heap} {ta : Nat} {k : String} {v : HV}
    (hwf : heapWF h = true) (hv : hvOk h.next v = true)
    (hnd : ∀ b, v ≠ HV.hdict b) :
    MergeOk ta h (setDictEntry h ta k v) := by
  refine ⟨le_of_eq (setDictEntry_next h ta k v).symm,
    heapWF_setDictEntry hwf hv, fun l _ => getList_setDictEntry h ta k v l,
    ?_, ?_⟩
  · intro d _ hr
    have hd : ta ≠ d := fun he => hr (by rw [← he]; exact DReach.refl)
    exact getDict_setDictEntry_ne h ta k v hd
  · intro d k2 b hm
    rcases getDict_setDictEntry_mem hm with h2 | ⟨hda, hq⟩
    · exact Or.inl h2
    · cases hq
      exact absurd rfl (hnd b)

/-- Writing a fresh deep copy into the target (the non-dict-node branch) is a
`MergeOk` step. -/
theorem MergeOk_copy_set {h : Heap} {ta : Nat} {k : String} {r : HV × Heap}
    (hwf : heapWF h = true) (hc : CopyOk h r) :
    MergeOk ta h (setDictEntry r.2 ta k r.1) := by
  obtain ⟨n1, w1, l1, d1, e1, el1, rootd, rootl, rootok⟩ := hc
  refine ⟨by rw [setDictEntry_next]; exact n1,
    heapWF_setDictEntry w1 rootok, ?_, ?_, ?_⟩
  · intro l hl
    rw [getList_setDictEntry, l1 l hl]
  · intro d hd hr
    have hda : ta ≠ d := fun he => hr (by rw [← he]; exact DReach.refl)
    rw [getDict_setDictEntry_ne _ _ _ _ hda, d1 d hd]
  · intro d k2 b hm
    rcases getDict_setDictEntry_mem hm with h2 | ⟨hda, hq⟩
    · exact e1 d k2 b h2
    · have h4 : HV.hdict b = r.1 := congrArg Prod.snd hq
      exact Or.inr (rootd b h4.symm)

theorem getDict_setDictObj_ne (h : Heap) (a : Nat)
    (es : List (String × HV)) {b : Nat} (hab : a ≠ b) :
    getDict (setDictObj h a es) b = getDict h b := by
  rw [getDict, getDict]
  exact congrArg (fun o => Option.getD o []) (lookupA_setA_ne h.dicts a es hab)

theorem setDictObj_next (h : Heap) (a : Nat) (es : List (String × HV)) :
    (setDictObj h a es).next = h.next := rfl

theorem setDictObj_lists (h : Heap) (a : Nat) (es : List (String × HV)) :
    (setDictObj h a es).lists = h.lists := rfl

theorem getList_setDictObj (h : Heap) (a : Nat) (es : List (String × HV))
    (l : Nat) : getList (setDictObj h a es) l = getList h l := rfl

theorem getDict_setDictObj_mem {h : Heap} {a : Nat}
    {es : List (String × HV)} {d : Nat} {q : String × HV}
    (hq : q ∈ getDict (setDictObj h a es) d) :
    q ∈ getDict h d ∨ (d = a ∧ q ∈ es) := by
  by_cases hd : a = d
  · subst hd
    rw [getDict] at hq
    rw [show (setDictObj h a es).dicts = setA h.dicts a es from rfl,
      lookupA_setA_self] at hq
    cases hl : lookupA h.dicts a with
    | none => rw [hl] at hq; cases hq
    | some es2 =>
      rw [hl] at hq
      exact Or.inr ⟨rfl, hq⟩
  · rw [getDict_setDictObj_ne _ _ _ hd] at hq
    exact Or.inl hq

theorem heapWF_setDictObj {h : Heap} {a : Nat} {es : List (String × HV)}
    (hwf : heapWF h = true) (hes : ∀ q ∈ es, hvOk h.next q.2 = true) :
    heapWF (setDictObj h a es) = true := by
  apply heapWF_intro
  · intro p hp
    rw [setDictObj_next]
    have hp2 : p ∈ setA h.dicts a es := hp
    rcases setA_mem hp2 with h2 | ⟨w, hw, hpa, hpes⟩
    · exact (heapWF_unfold hwf).1 p h2
    · refine ⟨((heapWF_unfold hwf).1 (p.1, w) hw).1, ?_⟩
      intro q hq
      rw [hpes] at hq
      exact hes q hq
  · intro p hp
    rw [setDictObj_next]
    exact (heapWF_unfold hwf).2 p hp

/-- The absent-key branch — allocate a fresh empty dict, hang it under the
target, then merge the source subtree into it — is a `MergeOk` step from the
pre-allocation heap, whatever the recursive merge into the fresh root did. -/
theorem MergeOk_absent_branch {hh h5 : Heap} {ta : Nat} {k : String}
    (hwf : heapWF hh = true) (hta : ta < hh.next)
    (hm : MergeOk hh.next
      (setDictEntry (allocDict hh).2 ta k (HV.hdict hh.next)) h5) :
    MergeOk ta hh h5 := by
  set h4 := setDictEntry (allocDict hh).2 ta k (HV.hdict hh.next) with hh4
  have hnext4 : h4.next = hh.next + 1 := rfl
  have htane : ta ≠ hh.next := by omega
  have hfresh4 : getDict h4 hh.next = [] := by
    rw [hh4, getDict_setDictEntry_ne _ _ _ _ htane,
      getDict_allocDict_self hwf]
  obtain ⟨n1, w1, l1, d1, e1⟩ := hm
  refine ⟨by omega, w1, ?_, ?_, ?_⟩
  · intro l hl
    rw [l1 l (by omega), hh4, getList_setDictEntry, getList_allocDict]
  · intro d hd hr
    have hdne : d ≠ hh.next := by omega
    have hnr : ¬ DReach h4 hh.next d := by
      intro h2
      exact hdne (DReach_empty_root hfresh4 h2)
    have htd : ta ≠ d := fun he => hr (by rw [← he]; exact DReach.refl)
    rw [d1 d (by omega) hnr, hh4, getDict_setDictEntry_ne _ _ _ _ htd,
      getDict_allocDict_ne _ hdne]
  · intro d k2 b hm2
    rcases e1 d k2 b hm2 with h2 | h2
    · rw [hh4] at h2
      rcases getDict_setDictEntry_mem h2 with h3 | ⟨hda, hq⟩
      · by_cases hdf : d = hh.next
        · rw [hdf, getDict_allocDict_self hwf] at h3
          cases h3
        · rw [getDict_allocDict_ne _ hdf] at h3
          exact Or.inl h3
      · have : HV.hdict b = HV.hdict hh.next := congrArg Prod.snd hq
        cases this
        exact Or.inr le_rfl
    · exact Or.inr (by omega)


theorem foldl_none_eq {β γ : Type} (f : Option β → γ → Option β)
    (hf : ∀ p, f none p = none) : ∀ l : List γ, l.foldl f none = none := by
  intro l
  induction l with
  | nil => rfl
  | cons p t ih => rw [List.foldl_cons, hf p, ih]

theorem HeapEvolve_refl {h : Heap} (hwf : heapWF h = true) : HeapEvolve h h :=
  ⟨le_rfl, hwf, fun _ _ => rfl, fun _ _ => rfl,
   fun _ _ _ hm => Or.inl hm, fun _ _ _ hm => Or.inl hm⟩

theorem HeapEvolve_trans {h h1 h2 : Heap} (m1 : HeapEvolve h h1)
    (m2 : HeapEvolve h1 h2) : HeapEvolve h h2 := by
  obtain ⟨n1, w1, l1, d1, e1, f1⟩ := m1
  obtain ⟨n2, w2, l2, d2, e2, f2⟩ := m2
  refine ⟨le_trans n1 n2, w2, ?_, ?_, ?_, ?_⟩
  · intro l hl
    rw [l2 l (by omega), l1 l hl]
  · intro d hd
    rw [d2 d (by omega), d1 d hd]
  · intro d k b hm
    rcases e2 d k b hm with h3 | h3
    · exact e1 d k b h3
    · exact Or.inr (by omega)
  · intro d k b hm
    rcases f2 d k b hm with h3 | h3
    · exact f1 d k b h3
    · exact Or.inr (by omega)

theorem CopyOk_heapEvolve {h : Heap} {r : HV × Heap} (hc : CopyOk h r) :
    HeapEvolve h r.2 := by
  obtain ⟨n1, w1, l1, d1, e1, el1, _, _, _⟩ := hc
  exact ⟨n1, w1, l1, d1, e1, el1⟩

/-- `copy.deepcopy` builds its result entirely out of fresh objects and leaves
every pre-existing object untouched. -/
theorem deepcopyHV_ok : ∀ (fuel : Nat) (h : Heap) (v : HV) (r : HV × Heap),
    heapWF h = true → deepcopyHV fuel h v = some r → CopyOk h r := by
  intro fuel
  induction fuel with
  | zero =>
    intro h v r hwf hd
    cases hd
  | succ fuel ih =>
    intro h v r hwf hd
    cases v with
    | hint n =>
      rw [deepcopyHV] at hd
      cases hd
      refine ⟨le_rfl, hwf, fun _ _ => rfl, fun _ _ => rfl,
        fun _ _ _ hm => Or.inl hm, fun _ _ _ hm => Or.inl hm,
        ?_, ?_, rfl⟩
      · intro a2 ha
        simp at ha
      · intro a2 ha
        simp at ha
    | hlist a =>
      rw [deepcopyHV] at hd
      cases hd
      refine ⟨by rw [allocList_next]; omega, heapWF_allocList hwf _,
        ?_, ?_, ?_, ?_, ?_, ?_, ?_⟩
      · intro l hl
        exact getList_allocList_ne h _ (by omega)
      · intro d _
        rw [getDict_allocList]
      · intro d k b hm
        rw [getDict_allocList] at hm
        exact Or.inl hm
      · intro d k b hm
        rw [getDict_allocList] at hm
        exact Or.inl hm
      · intro b hb
        cases hb
      · intro b hb
        cases hb
        rw [allocList_fst]
      · rw [allocList_fst, allocList_next, hvOk, decide_eq_true_eq]
        omega
    | hdict a =>
      rw [deepcopyHV] at hd
      have hloop : ∀ (entries es0 : List (String × HV)) (h0 : Heap),
          HeapEvolve h h0 → FreshVals h h0 es0 →
          ∀ out : List (String × HV) × Heap,
          entries.foldl
            (fun acc p =>
              match acc with
              | none => none
              | some es_h =>
                match deepcopyHV fuel es_h.2 p.2 with
                | none => none
                | some v2_h => some (es_h.1 ++ [(p.1, v2_h.1)], v2_h.2))
            (some (es0, h0)) = some out →
          HeapEvolve h out.2 ∧ FreshVals h out.2 out.1 := by
        intro entries
        induction entries with
        | nil =>
          intro es0 h0 hev hfv out hout
          cases hout
          exact ⟨hev, hfv⟩
        | cons p rest ihe =>
          intro es0 h0 hev hfv out hout
          rw [List.foldl_cons] at hout
          dsimp only at hout
          cases hcp : deepcopyHV fuel h0 p.2 with
          | none =>
            rw [hcp] at hout
            rw [foldl_none_eq _ (fun _ => rfl)] at hout
            cases hout
          | some v2_h =>
            rw [hcp] at hout
            have hc := ih h0 p.2 v2_h hev.2.1 hcp
            refine ihe (es0 ++ [(p.1, v2_h.1)]) v2_h.2
              (HeapEvolve_trans hev (CopyOk_heapEvolve hc)) ?_ out hout
            intro q hq
            rcases List.mem_append.mp hq with h2 | h2
            · obtain ⟨hv2, hdb, hlb⟩ := hfv q h2
              exact ⟨hvOk_mono hv2 (CopyOk_heapEvolve hc).1, hdb, hlb⟩
            · simp at h2
              subst h2
              obtain ⟨_, _, _, _, _, _, rootd, rootl, rootok⟩ := hc
              refine ⟨rootok, ?_, ?_⟩
              · intro b hb
                exact le_trans hev.1 (rootd b hb)
              · intro b hb
                exact le_trans hev.1 (rootl b hb)
      split at hd
      · cases hd
      · rename_i es_h heq
        cases hd
        obtain ⟨hev, hfv⟩ := hloop (getDict h a) [] h (HeapEvolve_refl hwf)
          (fun q hq => by cases hq) es_h heq
        obtain ⟨n1, w1, l1, d1, e1, f1⟩ := hev
        have hwalloc : heapWF (allocDict es_h.2).2 = true := heapWF_allocDict w1
        refine ⟨?_, ?_, ?_, ?_, ?_, ?_, ?_, ?_, ?_⟩
        · rw [setDictObj_next, allocDict_next]
          omega
        · apply heapWF_setDictObj hwalloc
          intro q hq
          rw [allocDict_next]
          exact hvOk_mono ((hfv q hq).1) (by omega)
        · intro l hl
          rw [getList_setDictObj, getList_allocDict]
          exact l1 l hl
        · intro d hd2
          have hfst : (allocDict es_h.2).1 = es_h.2.next := rfl
          have hdne : d ≠ es_h.2.next := by omega
          rw [getDict_setDictObj_ne _ _ _ (by omega),
            getDict_allocDict_ne _ hdne]
          exact d1 d hd2
        · intro d k b hm
          rcases getDict_setDictObj_mem hm with h2 | ⟨hda, hq⟩
          · by_cases hdf : d = es_h.2.next
            · rw [hdf, getDict_allocDict_self w1] at h2
              cases h2
            · rw [getDict_allocDict_ne _ hdf] at h2
              exact e1 d k b h2
          · exact Or.inr ((hfv _ hq).2.1 b rfl)
        · intro d k b hm
          rcases getDict_setDictObj_mem hm with h2 | ⟨hda, hq⟩
          · by_cases hdf : d = es_h.2.next
            · rw [hdf, getDict_allocDict_self w1] at h2
              cases h2
            · rw [getDict_allocDict_ne _ hdf] at h2
              exact f1 d k b h2
          · exact Or.inr ((hfv _ hq).2.2 b rfl)
        · intro b hb
          cases hb
          rw [allocDict_fst]
          omega
        · intro b hb
          cases hb
        · rw [allocDict_fst, setDictObj_next, allocDict_next, hvOk,
            decide_eq_true_eq]
          omega


/-- `deep_merge` on the heap writes only to dict objects reachable from the
target root and to fresh objects: no pre-existing list object ever changes,
and no pre-existing dict object outside the target's reachable region
changes. -/
theorem mergeH_ok : ∀ (fuel : Nat) (h : Heap) (ta sa : Nat) (h2 : Heap),
    heapWF h = true → ta < h.next → mergeH fuel h ta sa = some h2 →
    MergeOk ta h h2 := by
  intro fuel
  induction fuel with
  | zero =>
    intro h ta sa h2 hwf hta hm
    cases hm
  | succ fuel ih =>
    intro h ta sa h2 hwf hta hm
    rw [mergeH] at hm
    have hloop : ∀ (entries : List (String × HV)) (hh : Heap),
        heapWF hh = true → ta < hh.next →
        (∀ q ∈ entries, hvOk hh.next q.2 = true) →
        entries.foldl
          (fun acc p =>
            match acc with
            | none => none
            | some hcur =>
              match p.2 with
              | HV.hdict ms =>
                match lookupH (getDict hcur ta) p.1 with
                | some (HV.hdict n) => mergeH fuel hcur n ms
                | some _ =>
                  match deepcopyHV fuel hcur (HV.hdict ms) with
                  | none => none
                  | some r => some (setDictEntry r.2 ta p.1 r.1)
                | none =>
                  let r := allocDict hcur
                  mergeH fuel (setDictEntry r.2 ta p.1 (HV.hdict r.1)) r.1 ms
              | _ => some (setDictEntry hcur ta p.1 p.2))
          (some hh) = some h2 →
        MergeOk ta hh h2 := by
      intro entries
      induction entries with
      | nil =>
        intro hh hwfh hta2 _ hout
        cases hout
        exact MergeOk_refl hwfh
      | cons p rest ihe =>
        intro hh hwfh hta2 hvals hout
        obtain ⟨k, v⟩ := p
        have hvp : hvOk hh.next v = true := hvals (k, v) (List.mem_cons_self _ _)
        have hvrest : ∀ q ∈ rest, hvOk hh.next q.2 = true :=
          fun q hq => hvals q (List.mem_cons_of_mem _ hq)
        rw [List.foldl_cons] at hout
        dsimp only at hout
        cases v with
        | hint n =>
          dsimp only at hout
          have hstep : MergeOk ta hh (setDictEntry hh ta k (HV.hint n)) :=
            MergeOk_set_plain hwfh rfl (fun b hb => by cases hb)
          refine MergeOk_trans hwfh hstep
            (ihe _ hstep.2.1 hta2 (fun q hq => hvrest q hq) hout)
        | hlist a =>
          dsimp only at hout
          have hstep : MergeOk ta hh (setDictEntry hh ta k (HV.hlist a)) :=
            MergeOk_set_plain hwfh hvp (fun b hb => by cases hb)
          refine MergeOk_trans hwfh hstep
            (ihe _ hstep.2.1 hta2 (fun q hq => hvrest q hq) hout)
        | hdict ms =>
          dsimp only at hout
          cases hlk : lookupH (getDict hh ta) k with
          | none =>
            rw [hlk] at hout
            dsimp only at hout
            cases hmm : mergeH fuel
                (setDictEntry (allocDict hh).2 ta k (HV.hdict (allocDict hh).1))
                (allocDict hh).1 ms with
            | none =>
              rw [hmm, foldl_none_eq _ (fun _ => rfl)] at hout
              cases hout
            | some h5 =>
              rw [hmm] at hout
              have hwf4 : heapWF
                  (setDictEntry (allocDict hh).2 ta k
                    (HV.hdict (allocDict hh).1)) = true := by
                refine heapWF_setDictEntry (heapWF_allocDict hwfh) ?_
                rw [allocDict_next]
                have hfst : (allocDict hh).1 = hh.next := rfl
                rw [hfst, hvOk, decide_eq_true_eq]
                omega
              have hroot := ih _ (allocDict hh).1 ms h5 hwf4
                (by rw [setDictEntry_next, allocDict_next, allocDict_fst]; omega)
                hmm
              have hstep : MergeOk ta hh h5 :=
                MergeOk_absent_branch hwfh hta2 hroot
              refine MergeOk_trans hwfh hstep
                (ihe _ hstep.2.1 (by have := hstep.1; omega)
                  (fun q hq => hvOk_mono (hvrest q hq) hstep.1) hout)
          | some w =>
            cases w with
            | hdict n =>
              rw [hlk] at hout
              dsimp only at hout
              cases hmm : mergeH fuel hh n ms with
              | none =>
                rw [hmm, foldl_none_eq _ (fun _ => rfl)] at hout
                cases hout
              | some h3 =>
                rw [hmm] at hout
                have hn : n < hh.next := by
                  have := heapWF_dict_val hwfh (lookupH_mem hlk)
                  rw [hvOk, decide_eq_true_eq] at this
                  exact this
                have hm3 := ih hh n ms h3 hwfh hn hmm
                have hstep : MergeOk ta hh h3 :=
                  MergeOk_root (DReach.step DReach.refl (lookupH_mem hlk)) hm3
                refine MergeOk_trans hwfh hstep
                  (ihe _ hstep.2.1 (by have := hstep.1; omega)
                    (fun q hq => hvOk_mono (hvrest q hq) hstep.1) hout)
            | hint x =>
              rw [hlk] at hout
              dsimp only at hout
              cases hcp : deepcopyHV fuel hh (HV.hdict ms) with
              | none =>
                rw [hcp, foldl_none_eq _ (fun _ => rfl)] at hout
                cases hout
              | some r =>
                rw [hcp] at hout
                dsimp only at hout
                have hc := deepcopyHV_ok fuel hh _ r hwfh hcp
                have hstep : MergeOk ta hh (setDictEntry r.2 ta k r.1) :=
                  MergeOk_copy_set hwfh hc
                refine MergeOk_trans hwfh hstep
                  (ihe _ hstep.2.1 (by have := hstep.1; omega)
                    (fun q hq => hvOk_mono (hvrest q hq) hstep.1) hout)
            | hlist x =>
              rw [hlk] at hout
              dsimp only at hout
              cases hcp : deepcopyHV fuel hh (HV.hdict ms) with
              | none =>
                rw [hcp, foldl_none_eq _ (fun _ => rfl)] at hout
                cases hout
              | some r =>
                rw [hcp] at hout
                dsimp only at hout
                have hc := deepcopyHV_ok fuel hh _ r hwfh hcp
                have hstep : MergeOk ta hh (setDictEntry r.2 ta k r.1) :=
                  MergeOk_copy_set hwfh hc
                refine MergeOk_trans hwfh hstep
                  (ihe _ hstep.2.1 (by have := hstep.1; omega)
                    (fun q hq => hvOk_mono (hvrest q hq) hstep.1) hout)
    exact hloop (getDict h sa) h hwf hta
      (fun q hq => heapWF_dict_val hwf hq) hm


/-- C5 (amended): `deep_merge` never mutates any pre-existing list object and
never mutates any pre-existing dict object outside the target's reachable
region — so the source is never mutated provided it shares no dict object with
the target region; and in the non-map-node case the replacement installed is a
`copy.deepcopy` whose result is built entirely of freshly allocated objects,
sharing no object whatsoever with the source.  (In the absent-key case,
however, nested dicts are fresh but non-map leaf values such as lists are
shared by reference with the source — the counterexample — so no copy claim is
made there.) -/
theorem C5_no_shared_mutation :
    (∀ (fuel : Nat) (h : Heap) (ta sa : Nat) (h2 : Heap),
      heapWF h = true → ta < h.next → mergeH fuel h ta sa = some h2 →
      (∀ l, l < h.next → getList h2 l = getList h l) ∧
      (∀ d, d < h.next → ¬ DReach h ta d → getDict h2 d = getDict h d)) ∧
    (∀ (fuel : Nat) (h : Heap) (v : HV) (r : HV × Heap),
      heapWF h = true → deepcopyHV fuel h v = some r →
      (∀ d, d < h.next → getDict r.2 d = getDict h d) ∧
      (∀ l, l < h.next → getList r.2 l = getList h l) ∧
      (∀ b, r.1 = HV.hdict b → h.next ≤ b) ∧
      (∀ b, r.1 = HV.hlist b → h.next ≤ b) ∧
      (∀ d k b, h.next ≤ d → (k, HV.hdict b) ∈ getDict r.2 d → h.next ≤ b) ∧
      (∀ d k b, h.next ≤ d → (k, HV.hlist b) ∈ getDict r.2 d → h.next ≤ b)) := by
  constructor
  · intro fuel h ta sa h2 hwf hta hm
    obtain ⟨_, _, hl, hd, _⟩ := mergeH_ok fuel h ta sa h2 hwf hta hm
    exact ⟨hl, hd⟩
  · intro fuel h v r hwf hc
    obtain ⟨n1, w1, l1, d1, e1, f1, rootd, rootl, _⟩ :=
      deepcopyHV_ok fuel h v r hwf hc
    refine ⟨d1, l1, rootd, rootl, ?_, ?_⟩
    · intro d k b hd hm
      rcases e1 d k b hm with h3 | h3
      · rw [getDict_ge_next hwf hd] at h3
        cases h3
      · exact h3
    · intro d k b hd hm
      rcases f1 d k b hm with h3 | h3
      · rw [getDict_ge_next hwf hd] at h3
        cases h3
      · exact h3

/-- C5 witness: the amended theorem applied to the concrete `shareHeap`
scenario — after the merge the source's list object 3 and its dict object 1
are untouched, and a deep copy of dict 2 returns a root at the fresh address
5. -/
theorem C5_no_shared_mutation_witness :
    heapWF shareHeap = true ∧
    mergeH 10 shareHeap 0 1 = some mergedShareHeap ∧
    getList mergedShareHeap 3 = getList shareHeap 3 ∧
    getDict mergedShareHeap 1 = getDict shareHeap 1 ∧
    deepcopyHV 10 shareHeap (HV.hdict 2) = some copyShareResult ∧
    shareHeap.next ≤ 5 :=
  ⟨by decide, by decide,
   (C5_no_shared_mutation.1 10 shareHeap 0 1 mergedShareHeap (by decide)
      (by decide) (by decide)).1 3 (by decide),
   (C5_no_shared_mutation.1 10 shareHeap 0 1 mergedShareHeap (by decide)
      (by decide) (by decide)).2 1 (by decide)
     (fun hr => by
       have h0 : getDict shareHeap 0 = [] := by decide
       have := DReach_empty_root h0 hr
       cases this),
   by decide,
   (C5_no_shared_mutation.2 10 shareHeap (HV.hdict 2) copyShareResult
      (by decide) (by decide)).2.2.1 5 (by decide)⟩


end JinGen
